import Mathlib

/-!
# go-once: keyed "compute exactly once" maps

A shallow embedding of `once.go`.

The package is a thin layer over three pieces of Go's standard library, which
are embedded here at the level of their documented behaviour:

* `sync.Map` (`LoadOrStore`, `Delete`, `Range`) is a finite association list of
  key/value pairs.  Keys are of a type whose equality is decidable: the key types
  Go can hash and compare, without the floating-point NaNs.  It stores keys and
  values as `any`, and the package gets them back with unchecked type assertions
  (`v.(V)`, `key.(K)`), which panic on the nil value of an interface type;
* `sync.OnceFunc`, `sync.OnceValue`, `sync.OnceValues` allocate a closure that
  owns a piece of mutable state.  A closure is a reference, so the embedding
  keeps a heap of closure cells and function values are addresses into it;
* a computation `f` handed to the package is a Go function that may read and
  write the program's own variables and that either returns or panics.  It is a
  function from the caller's state `W` to an outcome and a new state.  A
  computation that does not terminate, or that calls back into the very map it
  is being run from, is not covered by this type.

Every operation is a function on the explicit state it reads and writes.  The
first part takes the calls one after the other.  Goroutines that call `Do` at
the same time are embedded as a step function on a pool of goroutines, each of
which is somewhere between the calls that make up `Do`.
-/

namespace Once

/-! ## Outcomes, computations and closure cells -/

/-- How a Go call ends: it returns a value, or it panics with a panic value. -/
inductive Outcome (P V : Type) where
  | ret (v : V)
  | panic (p : P)
  deriving DecidableEq, Repr

/-- A computation handed to the package: a Go `func() V` closure over the
caller's variables `W`. -/
abbrev Comp (W P V : Type) := W → Outcome P V × W

/-- A Go type used as a type parameter of the package.  `sync.Map` keeps keys
and values as `any`; a value of an interface type that is nil is kept as the nil
interface, and that is the one value on which the assertion `x.(T)` fails.
`isNil x` says that `x` is the nil value of an interface type `T`; a type that is
not an interface type has no such value. -/
class GoType (T : Type) where
  isNil : T → Bool

/-- Go's `int`, and a function value of type `func() V` (an `Addr`): not an
interface type, the assertion never fails. -/
instance : GoType Nat := ⟨fun _ => false⟩

/-- Go's `string`: not an interface type. -/
instance : GoType String := ⟨fun _ => false⟩

/-- An interface type such as `any`: `none` is its nil value, `some x` holds the
value `x` of a concrete type. -/
instance {T : Type} : GoType (Option T) := ⟨fun x => x.isNone⟩

/-- The unchecked type assertion `x.(T)` on what `sync.Map` hands back for a value
that went in as a `T`: it yields the value, except on the nil interface, where it
panics with a run-time error (`default`). -/
def assertType {P T : Type} [Inhabited P] [GoType T] (x : T) : Outcome P T :=
  if GoType.isNil x then Outcome.panic default else Outcome.ret x

/-- The captured variables of the closure that `sync.OnceValue(f)` returns:
either the `Once` has not fired yet and the closure still holds `f`, or it has
fired and the closure holds what the single run of `f` produced (`valid` and
`result`, or the recovered panic value `p`). -/
inductive Cell (W P V : Type) where
  | pending (f : Comp W P V)
  | done (o : Outcome P V)

/-- A function value of type `func() V` produced by `sync.OnceValue`: the
address of its closure cell. -/
abbrev Addr := Nat

/-- The part of the program state the package touches besides its maps.
`world` is the caller's own state, `cells` the heap of closures allocated by
`sync.OnceFunc/OnceValue/OnceValues`, and `execs` counts how many times the
body of a computation has been run (the role of the atomic counter that the
tests increment inside the computation). -/
structure Store (W P V : Type) where
  world : W
  cells : List (Cell W P V)
  execs : Nat

/-- The `sync.OnceValue(f)` constructor: allocates a fresh closure holding `f`
and returns it.  Nothing is run. -/
def OnceValue {W P V : Type} (f : Comp W P V) (σ : Store W P V) : Addr × Store W P V :=
  (σ.cells.length, { σ with cells := σ.cells ++ [Cell.pending f] })

/-- The `sync.OnceFunc(f)` constructor: `OnceValue` for a computation without a result. -/
def OnceFunc {W P : Type} (f : Comp W P Unit) (σ : Store W P Unit) : Addr × Store W P Unit :=
  (σ.cells.length, { σ with cells := σ.cells ++ [Cell.pending f] })

/-- The `sync.OnceValues(f)` constructor: `OnceValue` for a computation with two results. -/
def OnceValues {W P V1 V2 : Type} (f : Comp W P (V1 × V2)) (σ : Store W P (V1 × V2)) :
    Addr × Store W P (V1 × V2) :=
  (σ.cells.length, { σ with cells := σ.cells ++ [Cell.pending f] })

/-- Calling a function value `g()` where `g` came from `sync.OnceValue`.
On the first call the `Once` fires: `f` runs, its outcome is stored, and the
call ends the way `f` ended.  On every later call the stored outcome is
replayed and `f` is not run.  Calling an address that holds no closure is
Go's call of a nil function value, a run-time error: the panic value of Go's
run-time errors is `default`. -/
def call {W P V : Type} [Inhabited P] (g : Addr) (σ : Store W P V) :
    Outcome P V × Store W P V :=
  match σ.cells[g]? with
  | none => (Outcome.panic default, σ)
  | some (Cell.done o) => (o, σ)
  | some (Cell.pending f) =>
      let r := f σ.world
      (r.1, { world := r.2, cells := σ.cells.set g (Cell.done r.1), execs := σ.execs + 1 })

/-! ## `sync.Map` -/

/-- The contents of a `sync.Map`. -/
abbrev SyncMap (K V : Type) := List (K × V)

namespace SyncMap

variable {K V : Type} [DecidableEq K]

/-- The `sync.Map.Load` lookup: the value stored for `key`, if any. -/
def Load : SyncMap K V → K → Option V
  | [], _ => none
  | (k, v) :: m, key => if k = key then some v else Load m key

/-- The `sync.Map.LoadOrStore` operation: returns the existing value for the key
if present (`loaded = true`); otherwise stores and returns the given value. -/
def LoadOrStore (m : SyncMap K V) (key : K) (value : V) : (V × Bool) × SyncMap K V :=
  match Load m key with
  | some v => ((v, true), m)
  | none => ((value, false), m ++ [(key, value)])

/-- The `sync.Map.Delete` operation: deletes the value for a key. -/
def Delete (m : SyncMap K V) (key : K) : SyncMap K V :=
  m.filter (fun e => decide (e.1 ≠ key))

/-- The `sync.Map.Range` iteration: calls `f` sequentially for each key and value
present in the map; if `f` returns false, range stops the iteration.  The
callback is a closure, so it threads the state `S` it captures, and a panic in
the callback leaves the iteration. -/
def Range {S P : Type} : SyncMap K V → (K → V → S → Outcome P Bool × S) → S → Outcome P Unit × S
  | [], _, s => (Outcome.ret (), s)
  | (k, v) :: m, f, s =>
      match f k v s with
      | (Outcome.ret true, s1) => Range m f s1
      | (Outcome.ret false, s1) => (Outcome.ret (), s1)
      | (Outcome.panic p, s1) => (Outcome.panic p, s1)

end SyncMap

/-! ## `Map` -/

/-- Go's `type Map[K, V any] sync.Map`. -/
abbrev Map (K V : Type) := SyncMap K V

namespace Map

variable {K V : Type} [DecidableEq K]

/-- Get returns the value for key if it exists. Otherwise, it returns default value.
The body is `v, _ := LoadOrStore(key, defaultValue); return v.(V)`: the map is
updated first, then the unchecked assertion yields the value or panics. -/
def Get {P : Type} [Inhabited P] [GoType V] (m : Map K V) (key : K) (defaultValue : V) :
    Outcome P V × Map K V :=
  let r := SyncMap.LoadOrStore m key defaultValue
  (assertType r.1.1, r.2)

/-- Delete removes the key and its value from the map. -/
def Delete (m : Map K V) (key : K) : Map K V :=
  SyncMap.Delete m key

/-- Len returns the number of entries in the map. -/
def Len (m : Map K V) : Nat :=
  (SyncMap.Range (P := Empty) m (fun _ _ result => (Outcome.ret true, result + 1)) 0).2

/-- Range calls f sequentially for each key and value present in the map.
If f returns false, range stops the iteration.  The callback handed to
`sync.Map.Range` is `return f(key.(K), value.(V))`: the two unchecked assertions
come first, left to right, and a panic of either leaves the iteration before `f`
is called. -/
def Range {S P : Type} [Inhabited P] [GoType K] [GoType V] (m : Map K V)
    (f : K → V → S → Outcome P Bool × S) (s : S) : Outcome P Unit × S :=
  SyncMap.Range m
    (fun key value s1 =>
      match assertType (P := P) key with
      | Outcome.panic p => (Outcome.panic p, s1)
      | Outcome.ret k1 =>
          match assertType (P := P) value with
          | Outcome.panic p => (Outcome.panic p, s1)
          | Outcome.ret v1 => f k1 v1 s1)
    s

end Map

/-! ## The top-level wrappers -/

/-- Func returns a function that invokes f only once. -/
def Func {W P : Type} (f : Comp W P Unit) (σ : Store W P Unit) : Addr × Store W P Unit :=
  OnceFunc f σ

/-- Value returns a function that invokes f only once and returns the value returned by f. -/
def Value {W P V : Type} (f : Comp W P V) (σ : Store W P V) : Addr × Store W P V :=
  OnceValue f σ

/-- Values returns a function that invokes f only once and returns the values returned by f. -/
def Values {W P V1 V2 : Type} (f : Comp W P (V1 × V2)) (σ : Store W P (V1 × V2)) :
    Addr × Store W P (V1 × V2) :=
  OnceValues f σ

/-! ## `FuncMap`, `ValueMap`, `ValuesMap` -/

/-- Go's `type FuncMap[K any] Map[K, func()]`: the stored values are function values. -/
abbrev FuncMap (K : Type) := Map K Addr

/-- Go's `type ValueMap[K, V any] Map[K, func() V]`. -/
abbrev ValueMap (K : Type) := Map K Addr

/-- Go's `type ValuesMap[K, V1, V2 any] Map[K, func() (V1, V2)]`. -/
abbrev ValuesMap (K : Type) := Map K Addr

namespace FuncMap

variable {K W P : Type} [DecidableEq K] [Inhabited P]

/-- Do executes the function only once for the given key:
`(*Map[K, func()])(m).Get(key, sync.OnceFunc(f))()`. -/
def Do (m : FuncMap K) (key : K) (f : Comp W P Unit) (σ : Store W P Unit) :
    Outcome P Unit × FuncMap K × Store W P Unit :=
  let once := OnceFunc f σ
  let got := Map.Get (P := P) m key once.1
  match got.1 with
  | Outcome.panic p => (Outcome.panic p, got.2, once.2)
  | Outcome.ret g =>
      let r := call g once.2
      (r.1, got.2, r.2)

/-- Delete deletes the key and its function from the map. -/
def Delete (m : FuncMap K) (key : K) : FuncMap K :=
  Map.Delete m key

/-- Len returns the number of functions in the map. -/
def Len (m : FuncMap K) : Nat :=
  Map.Len m

end FuncMap

namespace ValueMap

variable {K W P V : Type} [DecidableEq K] [Inhabited P]

/-- Do executes the function only once for the given key and returns the value
returned by f: `(*Map[K, func() V])(m).Get(key, sync.OnceValue(f))()`. -/
def Do (m : ValueMap K) (key : K) (f : Comp W P V) (σ : Store W P V) :
    Outcome P V × ValueMap K × Store W P V :=
  let once := OnceValue f σ
  let got := Map.Get (P := P) m key once.1
  match got.1 with
  | Outcome.panic p => (Outcome.panic p, got.2, once.2)
  | Outcome.ret g =>
      let r := call g once.2
      (r.1, got.2, r.2)

/-- Delete removes the key and its function from the map. -/
def Delete (m : ValueMap K) (key : K) : ValueMap K :=
  Map.Delete m key

/-- Len returns the number of functions in the map. -/
def Len (m : ValueMap K) : Nat :=
  Map.Len m

/-- The callback that `Values` hands to `Range`:
`func(_ K, f func() V) bool { result = append(result, f()); return true }`.
It captures `result`; a panic of `f()` leaves it. -/
def appendResult (_ : K) (f : Addr) (s : List V × Store W P V) :
    Outcome P Bool × (List V × Store W P V) :=
  match call f s.2 with
  | (Outcome.ret v, σ1) => (Outcome.ret true, (s.1 ++ [v], σ1))
  | (Outcome.panic p, σ1) => (Outcome.panic p, (s.1, σ1))

/-- Values returns all values in the map: `result := make([]V, 0)`, then `Range`
with the callback above, then `return result`. -/
def Values [GoType K] (m : ValueMap K) (σ : Store W P V) :
    Outcome P (List V) × Store W P V :=
  match Map.Range m appendResult (([] : List V), σ) with
  | (Outcome.ret _, s) => (Outcome.ret s.1, s.2)
  | (Outcome.panic p, s) => (Outcome.panic p, s.2)

end ValueMap

namespace ValuesMap

variable {K W P V1 V2 : Type} [DecidableEq K] [Inhabited P]

/-- Do executes the function only once for the given key and returns the values
returned by f: `(*Map[K, func() (V1, V2)])(m).Get(key, sync.OnceValues(f))()`. -/
def Do (m : ValuesMap K) (key : K) (f : Comp W P (V1 × V2)) (σ : Store W P (V1 × V2)) :
    Outcome P (V1 × V2) × ValuesMap K × Store W P (V1 × V2) :=
  let once := OnceValues f σ
  let got := Map.Get (P := P) m key once.1
  match got.1 with
  | Outcome.panic p => (Outcome.panic p, got.2, once.2)
  | Outcome.ret g =>
      let r := call g once.2
      (r.1, got.2, r.2)

/-- Delete removes the key and its function from the map. -/
def Delete (m : ValuesMap K) (key : K) : ValuesMap K :=
  Map.Delete m key

/-- Len returns the number of functions in the map. -/
def Len (m : ValuesMap K) : Nat :=
  Map.Len m

end ValuesMap

/-! ## `LazyValueMap` -/

/-- LazyValueMap initializes values when they are first accessed. -/
structure LazyValueMap (K W P V : Type) where
  New : K → Comp W P V
  entries : ValueMap K

namespace LazyValueMap

variable {K W P V : Type} [DecidableEq K] [Inhabited P]

/-- Get returns the value for key if it exists. Otherwise, it calls New and stores. -/
def Get (p : LazyValueMap K W P V) (key : K) (σ : Store W P V) :
    Outcome P V × LazyValueMap K W P V × Store W P V :=
  let r := ValueMap.Do p.entries key (fun w => p.New key w) σ
  (r.1, { p with entries := r.2.1 }, r.2.2)

/-- Delete removes the key and its value from the map. -/
def Delete (p : LazyValueMap K W P V) (key : K) : LazyValueMap K W P V :=
  { p with entries := ValueMap.Delete p.entries key }

/-- Len returns the number of entries in the map. -/
def Len (p : LazyValueMap K W P V) : Nat :=
  ValueMap.Len p.entries

end LazyValueMap

/-! ## Observations used to state the properties -/

/-- A key is held by a map when the map has an entry for it. -/
def Held {K V : Type} [DecidableEq K] (m : Map K V) (key : K) : Prop :=
  (SyncMap.Load m key).isSome = true

instance {K V : Type} [DecidableEq K] (m : Map K V) (key : K) : Decidable (Held m key) := by
  unfold Held; infer_instance

/-- A map holds at most one entry per key. -/
def UniqueKeys {K V : Type} (m : Map K V) : Prop :=
  (m.map Prod.fst).Nodup

instance {K V : Type} [DecidableEq K] (m : Map K V) : Decidable (UniqueKeys m) := by
  unfold UniqueKeys; infer_instance

/-- The closure stored for a key, as it currently is: nothing when the key is
not held, otherwise the cell behind the stored function value. -/
def entry {K W P V : Type} [DecidableEq K] (m : Map K Addr) (σ : Store W P V) (key : K) :
    Option (Cell W P V) :=
  (SyncMap.Load m key).bind (fun g => σ.cells[g]?)

/-- Every function value stored in the map is a closure of the heap, and no two
keys share a closure.  This is what `Do` maintains: it stores a closure it has
just allocated. -/
def Sound {K W P V : Type} (m : Map K Addr) (σ : Store W P V) : Prop :=
  (∀ e ∈ m, e.2 < σ.cells.length) ∧ (m.map Prod.snd).Nodup

instance {K W P V : Type} (m : Map K Addr) (σ : Store W P V) : Decidable (Sound m σ) := by
  unfold Sound; infer_instance

/-- A caller that makes the calls `op x₁`, `op x₂`, ... one after the other on
the same object and records how each call ended. -/
def eachCall {M S X O : Type} (op : M → X → S → O × M × S) : M → List X → S → List O × M × S
  | m, [], s => ([], m, s)
  | m, x :: xs, s =>
      let r := op m x s
      let rest := eachCall op r.2.1 xs r.2.2
      (r.1 :: rest.1, rest.2)

/-- A caller that calls the function value `g` `n` times in a row and records
how each call ended. -/
def callTimes {W P V : Type} [Inhabited P] (g : Addr) : Nat → Store W P V →
    List (Outcome P V) × Store W P V
  | 0, σ => ([], σ)
  | n + 1, σ =>
      let r := call g σ
      let rest := callTimes g n r.2
      (r.1 :: rest.1, rest.2)

/-- The closure of every held key has fired.  This is what `Do` maintains: it
calls the closure right after storing it. -/
def Evaluated {K W P V : Type} [DecidableEq K] (m : Map K Addr) (σ : Store W P V) : Prop :=
  ∀ k, Held m k → ∃ o, entry m σ k = some (Cell.done o)

/-- The value a closure has memoized, if it has fired and returned one. -/
def Cell.value? {W P V : Type} : Option (Cell W P V) → Option V
  | some (Cell.done (Outcome.ret v)) => some v
  | _ => none

/-- The memoized values of the held keys, one per key that holds a value. -/
def memoized {K W P V : Type} [DecidableEq K] (m : Map K Addr) (σ : Store W P V) : List V :=
  (m.map Prod.fst).filterMap (fun k => Cell.value? (entry m σ k))

/-! ## Goroutines inside `Do`

`Do(key, f)` is `(*Map[K, func() V])(m).Get(key, sync.OnceValue(f))()`: it
evaluates `sync.OnceValue(f)`, then calls `Get`, then calls the function value
that `Get` returned.  Goroutines that call `Do` at the same time interleave at
these calls.  `LoadOrStore` is one atomic step of `sync.Map`.  The call of the
function value goes through `sync.Once.Do`, which runs the computation under the
mutex of the `Once`: a goroutine that finds the `Once` not done and its mutex
held waits; one that finds it done returns the stored outcome. -/

/-- Where a goroutine stands inside `Do(key, f)`. -/
inductive Goroutine (W P V : Type) where
  | entered (f : Comp W P V)
  | created (g : Addr)
  | got (g : Addr)
  | running (g : Addr)
  | returned (o : Outcome P V)

/-- The goroutine is inside the computation of the closure `g`, holding the
mutex of its `Once`. -/
def Goroutine.isRunning {W P V : Type} (g : Addr) : Goroutine W P V → Bool
  | Goroutine.running h => h == g
  | _ => false

/-- The state shared by the goroutines, and the goroutines themselves.  `begun`
counts how many times a goroutine has entered the body of a computation;
`store.execs` counts the bodies that have been run to their end. -/
structure Shared (K W P V : Type) where
  map : ValueMap K
  store : Store W P V
  begun : Nat
  pool : List (Goroutine W P V)

/-- One step of goroutine `i`, or `none` when it cannot move: it has returned,
or it waits for the mutex of the `Once`.
* `entered f`: evaluate `sync.OnceValue(f)`;
* `created g`: call `Get(key, g)`;
* `got g`: call `g()`; when the `Once` of `g` has not fired, take its mutex and
  enter the computation, unless another goroutine is inside it;
* `running g`: finish the computation; the closure stores the outcome, the
  mutex is released and the call ends. -/
def step {K W P V : Type} [DecidableEq K] [Inhabited P] (key : K) (i : Nat)
    (c : Shared K W P V) : Option (Shared K W P V) :=
  match c.pool[i]? with
  | none => none
  | some (Goroutine.entered f) =>
      let once := OnceValue f c.store
      some { c with store := once.2, pool := c.pool.set i (Goroutine.created once.1) }
  | some (Goroutine.created g) =>
      let got := Map.Get (P := P) c.map key g
      match got.1 with
      | Outcome.panic p =>
          some { c with map := got.2, pool := c.pool.set i (Goroutine.returned (Outcome.panic p)) }
      | Outcome.ret h =>
          some { c with map := got.2, pool := c.pool.set i (Goroutine.got h) }
  | some (Goroutine.got g) =>
      match c.store.cells[g]? with
      | some (Cell.pending _) =>
          if c.pool.any (Goroutine.isRunning g) then none
          else some { c with begun := c.begun + 1, pool := c.pool.set i (Goroutine.running g) }
      | _ =>
          let r := call g c.store
          some { c with store := r.2, pool := c.pool.set i (Goroutine.returned r.1) }
  | some (Goroutine.running g) =>
      let r := call g c.store
      some { c with store := r.2, pool := c.pool.set i (Goroutine.returned r.1) }
  | some (Goroutine.returned _) => none

/-- The goroutines scheduled in the given order; `none` when a scheduled
goroutine cannot move. -/
def run {K W P V : Type} [DecidableEq K] [Inhabited P] (key : K) :
    List Nat → Shared K W P V → Option (Shared K W P V)
  | [], c => some c
  | i :: rest, c => (step key i c).bind (run key rest)

/-- The moment `N` goroutines have each called `Do(key, fᵢ)` on the map `m`. -/
def race {K W P V : Type} (m : ValueMap K) (σ : Store W P V) (fs : List (Comp W P V)) :
    Shared K W P V :=
  { map := m, store := σ, begun := 0, pool := fs.map Goroutine.entered }

/-- How many steps a goroutine can still make at most. -/
def Goroutine.rank {W P V : Type} : Goroutine W P V → Nat
  | Goroutine.entered _ => 4
  | Goroutine.created _ => 3
  | Goroutine.got _ => 2
  | Goroutine.running _ => 1
  | Goroutine.returned _ => 0

/-- How many steps the goroutines can still make at most. -/
def Shared.fuel {K W P V : Type} (c : Shared K W P V) : Nat :=
  (c.pool.map Goroutine.rank).sum

/-- What holds of every state the racing goroutines reach, for the key `k`, the
caller's state `w0` and the count `e0` at the start, and the computations `fs`:
* a goroutine that has not built its closure yet holds one of `fs`;
* as long as `k` is not held nothing has run, and every goroutine is either
  there or holds a fresh closure over one of `fs`;
* once `k` is held, by the closure `a`, every goroutine past `Get` holds `a`,
  and either `a` has not fired, nothing has been run to its end, no goroutine has
  returned and at most one goroutine is inside the computation; or `a` has fired
  on one of `fs` run from `w0`, no goroutine is inside any more, and the outcome
  of every goroutine that has returned is the stored one. -/
def RaceInv {K W P V : Type} [DecidableEq K] (k : K) (w0 : W) (e0 : Nat)
    (fs : List (Comp W P V)) (c : Shared K W P V) : Prop :=
  (∀ f, Goroutine.entered f ∈ c.pool → f ∈ fs) ∧
  (SyncMap.Load c.map k = none →
    c.store.world = w0 ∧ c.store.execs = e0 ∧ c.begun = 0 ∧
    ∀ t ∈ c.pool, (∃ f, t = Goroutine.entered f) ∨
      (∃ g f, t = Goroutine.created g ∧ f ∈ fs ∧ c.store.cells[g]? = some (Cell.pending f))) ∧
  (∀ a, SyncMap.Load c.map k = some a →
    (∀ g, Goroutine.got g ∈ c.pool → g = a) ∧
    (∀ g, Goroutine.running g ∈ c.pool → g = a) ∧
    (((∃ f ∈ fs, c.store.cells[a]? = some (Cell.pending f)) ∧
        c.store.world = w0 ∧ c.store.execs = e0 ∧
        (∀ o, Goroutine.returned o ∉ c.pool) ∧
        ((c.begun = 0 ∧ ∀ g, Goroutine.running g ∉ c.pool) ∨
          (c.begun = 1 ∧ ∃ i : Nat, c.pool[i]? = some (Goroutine.running a) ∧
            ∀ (j : Nat) (g : Addr), c.pool[j]? = some (Goroutine.running g) → j = i))) ∨
      (∃ f ∈ fs, c.store.cells[a]? = some (Cell.done (f w0).1) ∧
        c.store.world = (f w0).2 ∧ c.store.execs = e0 + 1 ∧ c.begun = 1 ∧
        (∀ g, Goroutine.running g ∉ c.pool) ∧
        ∀ o, Goroutine.returned o ∈ c.pool → o = (f w0).1)))

/-- The computation of the tests that counts its runs and returns the count:
`actual.Add(1); return actual.Load()`. -/
def tick : Comp Nat String Nat := fun w => (Outcome.ret (w + 1), w + 1)

/-- The computation of the tests that counts its runs and panics:
`count.Add(1); panic("test")`. -/
def boom (V : Type) : Comp Nat String V := fun w => (Outcome.panic "test", w + 1)

/-- The empty program state of the tests: counter at zero, no closure allocated. -/
def start (V : Type) : Store Nat String V := { world := 0, cells := [], execs := 0 }

/-! ## `sync.Map` facts -/

section MapFacts

variable {K V : Type} [DecidableEq K]

theorem Load_append (m n : SyncMap K V) (key : K) :
    SyncMap.Load (m ++ n) key = (SyncMap.Load m key).or (SyncMap.Load n key) := by
  induction m with
  | nil => simp [SyncMap.Load]
  | cons e m ih =>
    obtain ⟨k, v⟩ := e
    by_cases h : k = key <;> simp [SyncMap.Load, h, ih]

theorem Load_eq_none_iff (m : SyncMap K V) (key : K) :
    SyncMap.Load m key = none ↔ key ∉ m.map Prod.fst := by
  induction m with
  | nil => simp [SyncMap.Load]
  | cons e m ih =>
    obtain ⟨k, v⟩ := e
    by_cases h : k = key
    · simp [SyncMap.Load, h]
    · simp only [SyncMap.Load, h, if_false, ih, List.map_cons, List.mem_cons, not_or]
      constructor
      · intro h1; exact ⟨fun h2 => h h2.symm, h1⟩
      · intro h1; exact h1.2

theorem Load_mem (m : SyncMap K V) (key : K) (v : V) (h : SyncMap.Load m key = some v) :
    (key, v) ∈ m := by
  induction m with
  | nil => simp [SyncMap.Load] at h
  | cons e m ih =>
    obtain ⟨k, w⟩ := e
    by_cases hk : k = key
    · simp [SyncMap.Load, hk] at h; simp [hk, h]
    · simp [SyncMap.Load, hk] at h; exact List.mem_cons_of_mem _ (ih h)

theorem Load_Delete_self (m : SyncMap K V) (key : K) :
    SyncMap.Load (SyncMap.Delete m key) key = none := by
  rw [Load_eq_none_iff]
  simp [SyncMap.Delete, List.mem_filter]

theorem Load_Delete_ne (m : SyncMap K V) (key k : K) (h : key ≠ k) :
    SyncMap.Load (SyncMap.Delete m key) k = SyncMap.Load m k := by
  induction m with
  | nil => simp [SyncMap.Delete, SyncMap.Load]
  | cons e m ih =>
    obtain ⟨k1, v⟩ := e
    by_cases h1 : k1 = key
    · subst h1
      have : SyncMap.Delete ((k1, v) :: m) k1 = SyncMap.Delete m k1 := by
        simp [SyncMap.Delete]
      rw [this, ih]; simp [SyncMap.Load, h]
    · have : SyncMap.Delete ((k1, v) :: m) key = (k1, v) :: SyncMap.Delete m key := by
        simp [SyncMap.Delete, h1]
      rw [this]; simp only [SyncMap.Load, ih]

theorem Delete_of_not_held (m : SyncMap K V) (key : K) (h : SyncMap.Load m key = none) :
    SyncMap.Delete m key = m := by
  rw [Load_eq_none_iff] at h
  simp only [SyncMap.Delete, List.filter_eq_self]
  intro e he
  have : e.1 ≠ key := fun hk => h (hk ▸ List.mem_map_of_mem Prod.fst he)
  simp [this]

omit [DecidableEq K] in
theorem Len_eq_length (m : Map K V) : Map.Len m = m.length := by
  have key : ∀ (l : SyncMap K V) (n : Nat),
      SyncMap.Range (P := Empty) l (fun _ _ result => (Outcome.ret true, result + 1)) n
        = (Outcome.ret (), n + l.length) := by
    intro l
    induction l with
    | nil => intro n; simp [SyncMap.Range]
    | cons e l ih =>
      intro n
      obtain ⟨k, v⟩ := e
      simp only [SyncMap.Range, ih, List.length_cons]
      congr 1; omega
  simp [Map.Len, key]

theorem length_Delete_held (m : SyncMap K V) (key : K) (hu : UniqueKeys m)
    (h : SyncMap.Load m key ≠ none) : (SyncMap.Delete m key).length + 1 = m.length := by
  induction m with
  | nil => simp [SyncMap.Load] at h
  | cons e m ih =>
    obtain ⟨k, v⟩ := e
    simp only [UniqueKeys, List.map_cons, List.nodup_cons] at hu
    by_cases hk : k = key
    · subst hk
      have h1 : SyncMap.Load m k = none := (Load_eq_none_iff m k).2 hu.1
      have : SyncMap.Delete ((k, v) :: m) k = SyncMap.Delete m k := by simp [SyncMap.Delete]
      rw [this, Delete_of_not_held m k h1]; simp
    · have : SyncMap.Delete ((k, v) :: m) key = (k, v) :: SyncMap.Delete m key := by
        simp [SyncMap.Delete, hk]
      have h2 : SyncMap.Load m key ≠ none := by simpa [SyncMap.Load, hk] using h
      rw [this]; simp only [List.length_cons]
      have := ih hu.2 h2
      omega

omit [DecidableEq K] in
theorem UniqueKeys_nil : UniqueKeys ([] : Map K V) := by
  simp [UniqueKeys]

theorem UniqueKeys_Get {P : Type} [Inhabited P] [GoType V] (m : Map K V) (key : K) (d : V)
    (hu : UniqueKeys m) : UniqueKeys (Map.Get (P := P) m key d).2 := by
  show UniqueKeys (SyncMap.LoadOrStore m key d).2
  unfold SyncMap.LoadOrStore
  cases h : SyncMap.Load m key with
  | some v => simpa using hu
  | none =>
    rw [Load_eq_none_iff] at h
    simp only [UniqueKeys, List.map_append, List.map_cons, List.map_nil]
    rw [List.nodup_append]
    refine ⟨hu, by simp, ?_⟩
    intro a ha hb
    simp only [List.mem_singleton] at hb
    exact h (hb ▸ ha)

theorem UniqueKeys_Delete (m : Map K V) (key : K) (hu : UniqueKeys m) :
    UniqueKeys (Map.Delete m key) := by
  unfold UniqueKeys Map.Delete SyncMap.Delete
  exact (List.Nodup.sublist ((List.filter_sublist m).map Prod.fst) hu)

theorem Held_iff (m : Map K V) (key : K) : Held m key ↔ SyncMap.Load m key ≠ none := by
  unfold Held; cases SyncMap.Load m key <;> simp

theorem not_Held_iff (m : Map K V) (key : K) : ¬ Held m key ↔ SyncMap.Load m key = none := by
  unfold Held; cases SyncMap.Load m key <;> simp

end MapFacts

/-! ## One `Do` -/

section DoFacts

variable {K W P V : Type} [DecidableEq K] [Inhabited P]

theorem FuncMap_Do_eq (m : FuncMap K) (k : K) (f : Comp W P Unit) (σ : Store W P Unit) :
    FuncMap.Do m k f σ = ValueMap.Do m k f σ := rfl

theorem ValuesMap_Do_eq {V1 V2 : Type} (m : ValuesMap K) (k : K) (f : Comp W P (V1 × V2))
    (σ : Store W P (V1 × V2)) : ValuesMap.Do m k f σ = ValueMap.Do m k f σ := rfl

/-- The assertion `v.(func() V)` of `Get` on a stored function value never fails. -/
theorem Get_func (m : Map K Addr) (key : K) (g : Addr) :
    Map.Get (P := P) m key g
      = (Outcome.ret (SyncMap.LoadOrStore m key g).1.1, (SyncMap.LoadOrStore m key g).2) := rfl

/-- `Do` is: allocate the closure, `LoadOrStore` it, call what came back. -/
theorem Do_eq (m : ValueMap K) (k : K) (f : Comp W P V) (σ : Store W P V) :
    ValueMap.Do m k f σ
      = ((call (SyncMap.LoadOrStore m k σ.cells.length).1.1 (OnceValue f σ).2).1,
         (SyncMap.LoadOrStore m k σ.cells.length).2,
         (call (SyncMap.LoadOrStore m k σ.cells.length).1.1 (OnceValue f σ).2).2) := rfl

/-- `Do` on a key that is not held installs a fresh closure and runs `f`. -/
theorem Do_fresh (m : ValueMap K) (k : K) (f : Comp W P V) (σ : Store W P V)
    (hk : SyncMap.Load m k = none) :
    ValueMap.Do m k f σ =
      ((f σ.world).1, m ++ [(k, σ.cells.length)],
        { world := (f σ.world).2,
          cells := σ.cells ++ [Cell.done (f σ.world).1],
          execs := σ.execs + 1 }) := by
  rw [Do_eq]
  simp [SyncMap.LoadOrStore, hk, OnceValue, call]

/-- `Do` on a key whose closure has fired replays the stored outcome; the
computation passed in is dropped. -/
theorem Do_memo (m : ValueMap K) (k : K) (g : Comp W P V) (σ : Store W P V) (a : Addr)
    (o : Outcome P V) (hk : SyncMap.Load m k = some a) (ha : σ.cells[a]? = some (Cell.done o)) :
    ValueMap.Do m k g σ = (o, m, { σ with cells := σ.cells ++ [Cell.pending g] }) := by
  have hlt : a < σ.cells.length := (List.getElem?_eq_some.1 ha).1
  have h2 : (σ.cells ++ [Cell.pending g])[a]? = some (Cell.done o) := by
    rw [List.getElem?_append_left hlt]; exact ha
  rw [Do_eq]
  simp [SyncMap.LoadOrStore, hk, OnceValue, call, h2]

/-- Repeated `Do` on a key whose closure has fired: every call replays the stored
outcome, no computation runs, the caller's state and the map stay as they are. -/
theorem eachCall_Do_memo (k : K) (gs : List (Comp W P V)) (m : ValueMap K) (σ : Store W P V)
    (a : Addr) (o : Outcome P V) (hk : SyncMap.Load m k = some a)
    (ha : σ.cells[a]? = some (Cell.done o)) :
    (eachCall (fun m f σ => ValueMap.Do m k f σ) m gs σ).1 = List.replicate gs.length o ∧
    (eachCall (fun m f σ => ValueMap.Do m k f σ) m gs σ).2.1 = m ∧
    (eachCall (fun m f σ => ValueMap.Do m k f σ) m gs σ).2.2.world = σ.world ∧
    (eachCall (fun m f σ => ValueMap.Do m k f σ) m gs σ).2.2.execs = σ.execs ∧
    (eachCall (fun m f σ => ValueMap.Do m k f σ) m gs σ).2.2.cells[a]? = some (Cell.done o) := by
  induction gs generalizing σ with
  | nil => simp [eachCall, ha]
  | cons g gs ih =>
    have hlt : a < σ.cells.length := (List.getElem?_eq_some.1 ha).1
    have h2 : (σ.cells ++ [Cell.pending g])[a]? = some (Cell.done o) := by
      rw [List.getElem?_append_left hlt]; exact ha
    have := ih { σ with cells := σ.cells ++ [Cell.pending g] } h2
    simp only [eachCall, Do_memo m k g σ a o hk ha, List.length_cons, List.replicate_succ]
    exact ⟨by rw [this.1], this.2.1, this.2.2.1, this.2.2.2.1, this.2.2.2.2⟩

/-- The calls `Do(k, f)`, `Do(k, g₁)`, ... on a key that is not held: `f` runs
once, every call ends the way `f` ended. -/
theorem eachCall_Do_fresh (k : K) (f : Comp W P V) (gs : List (Comp W P V)) (m : ValueMap K)
    (σ : Store W P V) (hk : SyncMap.Load m k = none) :
    (eachCall (fun m f σ => ValueMap.Do m k f σ) m (f :: gs) σ).1
        = List.replicate (gs.length + 1) (f σ.world).1 ∧
    (eachCall (fun m f σ => ValueMap.Do m k f σ) m (f :: gs) σ).2.1
        = m ++ [(k, σ.cells.length)] ∧
    (eachCall (fun m f σ => ValueMap.Do m k f σ) m (f :: gs) σ).2.2.world = (f σ.world).2 ∧
    (eachCall (fun m f σ => ValueMap.Do m k f σ) m (f :: gs) σ).2.2.execs = σ.execs + 1 := by
  have hL : SyncMap.Load (m ++ [(k, σ.cells.length)]) k = some σ.cells.length := by
    simp [Load_append, hk, SyncMap.Load]
  have := eachCall_Do_memo k gs (m ++ [(k, σ.cells.length)])
    { world := (f σ.world).2, cells := σ.cells ++ [Cell.done (f σ.world).1],
      execs := σ.execs + 1 } σ.cells.length (f σ.world).1 hL (by simp)
  simp only [eachCall, Do_fresh m k f σ hk, List.replicate_succ]
  exact ⟨by rw [this.1], this.2.1, this.2.2.1, this.2.2.2.1⟩

end DoFacts

/-! ## Calling a closure -/

section CallFacts

variable {K W P V : Type} [DecidableEq K] [Inhabited P]

omit [DecidableEq K] in
theorem call_pending (g : Addr) (σ : Store W P V) (f : Comp W P V)
    (h : σ.cells[g]? = some (Cell.pending f)) :
    call g σ = ((f σ.world).1,
      { world := (f σ.world).2, cells := σ.cells.set g (Cell.done (f σ.world).1),
        execs := σ.execs + 1 }) := by
  simp [call, h]

omit [DecidableEq K] in
theorem call_done (g : Addr) (σ : Store W P V) (o : Outcome P V)
    (h : σ.cells[g]? = some (Cell.done o)) : call g σ = (o, σ) := by
  simp [call, h]

omit [DecidableEq K] in
theorem call_length (g : Addr) (σ : Store W P V) :
    (call g σ).2.cells.length = σ.cells.length := by
  unfold call
  split <;> simp

omit [DecidableEq K] in
theorem call_frame (g y : Addr) (σ : Store W P V) (h : y ≠ g) :
    (call g σ).2.cells[y]? = σ.cells[y]? := by
  unfold call
  split
  · rfl
  · rfl
  · simp only [List.getElem?_set]
    rw [if_neg (fun hc => h hc.symm)]

omit [DecidableEq K] in
theorem call_done_after (g : Addr) (σ : Store W P V) (h : g < σ.cells.length) :
    ∃ o, (call g σ).2.cells[g]? = some (Cell.done o) := by
  unfold call
  split
  · rename_i hn
    rw [List.getElem?_eq_none_iff] at hn
    exact absurd h (by simpa using hn)
  · rename_i o ho
    exact ⟨o, ho⟩
  · rename_i f hf
    exact ⟨(f σ.world).1, by simp [List.getElem?_set, h]⟩

omit [DecidableEq K] in
theorem callTimes_done (g : Addr) (n : Nat) (σ : Store W P V) (o : Outcome P V)
    (h : σ.cells[g]? = some (Cell.done o)) :
    callTimes g n σ = (List.replicate n o, σ) := by
  induction n with
  | zero => rfl
  | succ n ih => simp [callTimes, call_done g σ o h, ih, List.replicate_succ]

omit [DecidableEq K] in
/-- A fresh closure called `n + 1` times: the computation runs on the first call
and every call ends the way that run ended. -/
theorem callTimes_fresh (f : Comp W P V) (n : Nat) (σ : Store W P V) :
    (callTimes (OnceValue f σ).1 (n + 1) (OnceValue f σ).2).1
        = List.replicate (n + 1) (f σ.world).1 ∧
    (callTimes (OnceValue f σ).1 (n + 1) (OnceValue f σ).2).2.world = (f σ.world).2 ∧
    (callTimes (OnceValue f σ).1 (n + 1) (OnceValue f σ).2).2.execs = σ.execs + 1 ∧
    (callTimes (OnceValue f σ).1 1 (OnceValue f σ).2).2.execs = σ.execs + 1 ∧
    (OnceValue f σ).2.execs = σ.execs ∧ (OnceValue f σ).2.world = σ.world := by
  have hp : (OnceValue f σ).2.cells[(OnceValue f σ).1]? = some (Cell.pending f) := by
    simp [OnceValue]
  have hc := call_pending (OnceValue f σ).1 (OnceValue f σ).2 f hp
  have hw : (OnceValue f σ).2.world = σ.world := rfl
  have he : (OnceValue f σ).2.execs = σ.execs := rfl
  have hd : (call (OnceValue f σ).1 (OnceValue f σ).2).2.cells[(OnceValue f σ).1]?
      = some (Cell.done (f σ.world).1) := by
    rw [hc]; simp [OnceValue]
  have ht := callTimes_done (OnceValue f σ).1 n _ _ hd
  refine ⟨?_, ?_, ?_, ?_, he, hw⟩
  · simp only [callTimes, ht, List.replicate_succ]; rw [hc, hw]
  · simp only [callTimes, ht]; rw [hc, hw]
  · simp only [callTimes, ht]; rw [hc, he]
  · simp only [callTimes]; rw [hc, he]

end CallFacts

/-! ## `LazyValueMap.Get` against `ValueMap.Do` -/

section LazyFacts

variable {K W P V : Type} [DecidableEq K] [Inhabited P]

/-- Repeated `Get(k)` makes the same steps as repeated `Do(k, New(k))` on the
backing map, and never touches `New`. -/
theorem eachCall_Get_eq (k : K) (n : Nat) (p : LazyValueMap K W P V) (σ : Store W P V) :
    (eachCall (fun p (_ : Unit) σ => LazyValueMap.Get p k σ) p (List.replicate n ()) σ).1
      = (eachCall (fun m f σ => ValueMap.Do m k f σ) p.entries
          (List.replicate n (fun w => p.New k w)) σ).1 ∧
    (eachCall (fun p (_ : Unit) σ => LazyValueMap.Get p k σ) p (List.replicate n ()) σ).2.1.entries
      = (eachCall (fun m f σ => ValueMap.Do m k f σ) p.entries
          (List.replicate n (fun w => p.New k w)) σ).2.1 ∧
    (eachCall (fun p (_ : Unit) σ => LazyValueMap.Get p k σ) p (List.replicate n ()) σ).2.1.New
      = p.New ∧
    (eachCall (fun p (_ : Unit) σ => LazyValueMap.Get p k σ) p (List.replicate n ()) σ).2.2
      = (eachCall (fun m f σ => ValueMap.Do m k f σ) p.entries
          (List.replicate n (fun w => p.New k w)) σ).2.2 := by
  induction n generalizing p σ with
  | zero => simp [eachCall]
  | succ n ih =>
    have h := ih (LazyValueMap.Get p k σ).2.1 (LazyValueMap.Get p k σ).2.2
    simp only [List.replicate_succ, eachCall]
    exact ⟨by rw [h.1]; rfl, by rw [h.2.1]; rfl, by rw [h.2.2.1]; rfl, by rw [h.2.2.2]; rfl⟩

end LazyFacts

/-! ## What `Do` and `Delete` maintain -/

section Invariants

variable {K W P V : Type} [DecidableEq K] [Inhabited P]

theorem Load_of_mem (m : SyncMap K Addr) (k : K) (a : Addr) (hu : UniqueKeys m)
    (h : (k, a) ∈ m) : SyncMap.Load m k = some a := by
  induction m with
  | nil => cases h
  | cons e m ih =>
    obtain ⟨k1, a1⟩ := e
    simp only [UniqueKeys, List.map_cons, List.nodup_cons] at hu
    rcases List.mem_cons.1 h with h1 | h1
    · cases h1; simp [SyncMap.Load]
    · have hne : k1 ≠ k := fun hc => hu.1 (hc ▸ List.mem_map_of_mem Prod.fst h1)
      simp only [SyncMap.Load, hne, if_false]
      exact ih hu.2 h1

omit [DecidableEq K] in
theorem snd_ne_of_fst_ne (m : SyncMap K Addr) (a b : K) (x y : Addr)
    (hn : (m.map Prod.snd).Nodup) (ha : (a, x) ∈ m) (hb : (b, y) ∈ m) (hab : a ≠ b) :
    x ≠ y := by
  intro hxy
  have := List.inj_on_of_nodup_map hn ha hb hxy
  exact hab (congrArg Prod.fst this)

theorem Do_map (m : ValueMap K) (k : K) (f : Comp W P V) (σ : Store W P V) :
    (ValueMap.Do m k f σ).2.1 = (SyncMap.LoadOrStore m k σ.cells.length).2 := rfl

theorem Do_store (m : ValueMap K) (k : K) (f : Comp W P V) (σ : Store W P V) :
    (ValueMap.Do m k f σ).2.2
      = (call (SyncMap.LoadOrStore m k σ.cells.length).1.1
          { σ with cells := σ.cells ++ [Cell.pending f] }).2 := rfl

theorem Do_length (m : ValueMap K) (k : K) (f : Comp W P V) (σ : Store W P V) :
    (ValueMap.Do m k f σ).2.2.cells.length = σ.cells.length + 1 := by
  rw [Do_store, call_length]; simp

omit [DecidableEq K] [Inhabited P] in
theorem Sound_nil (σ : Store W P V) : Sound ([] : Map K Addr) σ := by
  simp [Sound]

theorem Sound_Do (m : ValueMap K) (k : K) (f : Comp W P V) (σ : Store W P V)
    (hs : Sound m σ) : Sound (ValueMap.Do m k f σ).2.1 (ValueMap.Do m k f σ).2.2 := by
  unfold Sound
  rw [Do_length, Do_map]
  cases h : SyncMap.Load m k with
  | some a =>
    simp only [SyncMap.LoadOrStore, h]
    exact ⟨fun e he => Nat.lt_succ_of_lt (hs.1 e he), hs.2⟩
  | none =>
    simp only [SyncMap.LoadOrStore, h]
    refine ⟨?_, ?_⟩
    · intro e he
      rcases List.mem_append.1 he with h1 | h1
      · exact Nat.lt_succ_of_lt (hs.1 e h1)
      · simp only [List.mem_singleton] at h1
        subst h1; exact Nat.lt_succ_self _
    · simp only [List.map_append, List.map_cons, List.map_nil]
      rw [List.nodup_append]
      refine ⟨hs.2, by simp, ?_⟩
      intro x hx hy
      simp only [List.mem_singleton] at hy
      obtain ⟨e, he, rfl⟩ := List.mem_map.1 hx
      have hlt := hs.1 e he
      rw [hy] at hlt
      exact Nat.lt_irrefl _ hlt

omit [DecidableEq K] [Inhabited P] in
theorem Sound_Delete [DecidableEq K] (m : ValueMap K) (k : K) (σ : Store W P V)
    (hs : Sound m σ) : Sound (ValueMap.Delete m k) σ := by
  unfold Sound ValueMap.Delete Map.Delete SyncMap.Delete
  exact ⟨fun e he => hs.1 e (List.mem_of_mem_filter he),
    List.Nodup.sublist ((List.filter_sublist m).map Prod.snd) hs.2⟩

theorem UniqueKeys_Do (m : ValueMap K) (k : K) (f : Comp W P V) (σ : Store W P V)
    (hu : UniqueKeys m) : UniqueKeys (ValueMap.Do m k f σ).2.1 := by
  rw [Do_map]; exact UniqueKeys_Get (P := P) m k _ hu

/-- `Do(a, f)` leaves every other key held or not held as it was. -/
theorem Load_Do_ne (m : ValueMap K) (a b : K) (f : Comp W P V) (σ : Store W P V)
    (hab : a ≠ b) : SyncMap.Load (ValueMap.Do m a f σ).2.1 b = SyncMap.Load m b := by
  rw [Do_map]
  cases h : SyncMap.Load m a with
  | some x => simp [SyncMap.LoadOrStore, h]
  | none =>
    simp only [SyncMap.LoadOrStore, h, Load_append, SyncMap.Load, hab, if_false]
    cases SyncMap.Load m b <;> rfl

/-- `Do(a, f)` leaves the closure of every other key as it is. -/
theorem entry_Do_ne (m : ValueMap K) (a b : K) (f : Comp W P V) (σ : Store W P V)
    (hs : Sound m σ) (hab : a ≠ b) :
    entry (ValueMap.Do m a f σ).2.1 (ValueMap.Do m a f σ).2.2 b = entry m σ b := by
  have hload := Load_Do_ne m a b f σ hab
  unfold entry
  rw [hload]
  cases hb : SyncMap.Load m b with
  | none => rfl
  | some y =>
    have hmem := Load_mem m b y hb
    have hy : y < σ.cells.length := hs.1 _ hmem
    have hg : y ≠ (SyncMap.LoadOrStore m a σ.cells.length).1.1 := by
      cases h : SyncMap.Load m a with
      | some x =>
        simp only [SyncMap.LoadOrStore, h]
        exact (snd_ne_of_fst_ne m a b x y hs.2 (Load_mem m a x h) hmem hab).symm
      | none =>
        simp only [SyncMap.LoadOrStore, h]
        exact Nat.ne_of_lt hy
    simp only [Option.some_bind]
    rw [Do_store, call_frame _ _ _ hg]
    exact List.getElem?_append_left hy

omit [Inhabited P] in
/-- `Delete(a)` leaves the closure of every other key as it is. -/
theorem entry_Delete_ne (m : ValueMap K) (a b : K) (σ : Store W P V) (hab : a ≠ b) :
    entry (ValueMap.Delete m a) σ b = entry m σ b := by
  unfold entry ValueMap.Delete Map.Delete
  rw [Load_Delete_ne m a b hab]

omit [Inhabited P] in
theorem Evaluated_nil (σ : Store W P V) : Evaluated ([] : Map K Addr) σ := by
  intro k hk
  simp [Held, SyncMap.Load] at hk

theorem Evaluated_Do (m : ValueMap K) (k : K) (f : Comp W P V) (σ : Store W P V)
    (he : Evaluated m σ) : Evaluated (ValueMap.Do m k f σ).2.1 (ValueMap.Do m k f σ).2.2 := by
  have keep : ∀ (y : Addr) (o : Outcome P V) (c : Cell W P V),
      σ.cells[y]? = some (Cell.done o) → (σ.cells ++ [c])[y]? = some (Cell.done o) := by
    intro y o c hy
    rw [List.getElem?_append_left (List.getElem?_eq_some.1 hy).1]; exact hy
  cases h : SyncMap.Load m k with
  | none =>
    rw [Do_fresh m k f σ h]
    intro k1 hk1
    unfold entry
    by_cases hk : k = k1
    · subst hk
      refine ⟨(f σ.world).1, ?_⟩
      simp [Load_append, h, SyncMap.Load]
    · have hl : SyncMap.Load (m ++ [(k, σ.cells.length)]) k1 = SyncMap.Load m k1 := by
        simp only [Load_append, SyncMap.Load, hk, if_false]
        cases SyncMap.Load m k1 <;> rfl
      have hh : Held m k1 := by
        rw [Held_iff] at hk1 ⊢; rwa [hl] at hk1
      obtain ⟨o, ho⟩ := he k1 hh
      refine ⟨o, ?_⟩
      rw [hl]
      unfold entry at ho
      cases hy : SyncMap.Load m k1 with
      | none => rw [hy] at ho; cases ho
      | some y =>
        rw [hy] at ho
        simp only [Option.some_bind] at ho ⊢
        exact keep y o _ ho
  | some a =>
    obtain ⟨o, ho⟩ := he k ((Held_iff m k).2 (by rw [h]; simp))
    have ha : σ.cells[a]? = some (Cell.done o) := by
      unfold entry at ho; rw [h] at ho; exact ho
    rw [Do_memo m k f σ a o h ha]
    intro k1 hk1
    obtain ⟨o1, ho1⟩ := he k1 hk1
    refine ⟨o1, ?_⟩
    unfold entry at ho1 ⊢
    cases hy : SyncMap.Load m k1 with
    | none => rw [hy] at ho1; cases ho1
    | some y =>
      rw [hy] at ho1
      simp only [Option.some_bind] at ho1 ⊢
      exact keep y o1 _ ho1

omit [Inhabited P] in
theorem Evaluated_Delete (m : ValueMap K) (k : K) (σ : Store W P V) (he : Evaluated m σ) :
    Evaluated (ValueMap.Delete m k) σ := by
  intro k1 hk1
  by_cases hk : k = k1
  · subst hk
    rw [Held_iff] at hk1
    exact absurd (Load_Delete_self m k) hk1
  · rw [entry_Delete_ne m k k1 σ hk]
    apply he
    rw [Held_iff] at hk1 ⊢
    unfold ValueMap.Delete Map.Delete at hk1
    rwa [Load_Delete_ne m k k1 hk] at hk1

end Invariants

/-! ## `Values` -/

section ValuesFacts

variable {K W P V : Type} [DecidableEq K] [Inhabited P]

omit [DecidableEq K] in
/-- `Range` with the callback of `Values` over entries whose closures have all
fired: either all of them hold a value and the values are appended in order, or
the iteration leaves with the panic value stored in one of them.  The program
state is not changed. -/
theorem Range_appendResult (l : SyncMap K Addr) (acc : List V) (σ : Store W P V)
    (h : ∀ e ∈ l, ∃ o, σ.cells[e.2]? = some (Cell.done o)) :
    ((∀ e ∈ l, ∃ v, σ.cells[e.2]? = some (Cell.done (Outcome.ret v))) ∧
      SyncMap.Range l ValueMap.appendResult (acc, σ)
        = (Outcome.ret (), (acc ++ l.filterMap (fun e => Cell.value? σ.cells[e.2]?), σ))) ∨
    (∃ e ∈ l, ∃ p acc1, σ.cells[e.2]? = some (Cell.done (Outcome.panic p)) ∧
      SyncMap.Range l ValueMap.appendResult (acc, σ) = (Outcome.panic p, (acc1, σ))) := by
  induction l generalizing acc with
  | nil => left; simp [SyncMap.Range]
  | cons e l ih =>
    obtain ⟨k, a⟩ := e
    obtain ⟨o, ho⟩ := h (k, a) (List.mem_cons_self _ _)
    have ho1 : σ.cells[a]? = some (Cell.done o) := ho
    cases o with
    | panic p =>
      right
      refine ⟨(k, a), List.mem_cons_self _ _, p, acc, ho, ?_⟩
      simp [SyncMap.Range, ValueMap.appendResult, call_done a σ _ ho1]
    | ret v =>
      have hstep : SyncMap.Range ((k, a) :: l) ValueMap.appendResult (acc, σ)
          = SyncMap.Range l ValueMap.appendResult (acc ++ [v], σ) := by
        simp [SyncMap.Range, ValueMap.appendResult, call_done a σ _ ho1]
      rcases ih (acc ++ [v]) (fun e he => h e (List.mem_cons_of_mem _ he)) with h1 | h1
      · left
        refine ⟨?_, ?_⟩
        · intro e he
          rcases List.mem_cons.1 he with he1 | he1
          · subst he1; exact ⟨v, ho⟩
          · exact h1.1 e he1
        · rw [hstep, h1.2]
          simp [List.filterMap_cons, ho1, Cell.value?]
      · right
        obtain ⟨e, he, p, acc1, hp, hr⟩ := h1
        exact ⟨e, List.mem_cons_of_mem _ he, p, acc1, hp, by rw [hstep, hr]⟩

omit [DecidableEq K] [Inhabited P] in
theorem SyncMap_Range_congr {S : Type} (l : SyncMap K Addr)
    (f g : K → Addr → S → Outcome P Bool × S)
    (h : ∀ e ∈ l, ∀ s, f e.1 e.2 s = g e.1 e.2 s) (s : S) :
    SyncMap.Range l f s = SyncMap.Range l g s := by
  induction l generalizing s with
  | nil => rfl
  | cons e l ih =>
    obtain ⟨k, a⟩ := e
    have he := h (k, a) (List.mem_cons_self _ _) s
    simp only at he
    simp only [SyncMap.Range, he]
    split
    · exact ih (fun e1 h1 => h e1 (List.mem_cons_of_mem _ h1)) _
    · rfl
    · rfl

omit [DecidableEq K] in
/-- When no key of the map is the nil interface value, the assertions of `Range`
all succeed and the callback sees every entry. -/
theorem Range_of_keys_not_nil {S : Type} [GoType K] (m : Map K Addr)
    (f : K → Addr → S → Outcome P Bool × S) (s : S)
    (h : ∀ e ∈ m, GoType.isNil e.1 = false) :
    Map.Range m f s = SyncMap.Range m f s := by
  unfold Map.Range
  apply SyncMap_Range_congr
  intro e he s1
  simp [assertType, h e he, GoType.isNil]

omit [DecidableEq K] [Inhabited P] in
theorem length_filterMap_of_forall_some {A B : Type} (f : A → Option B) (l : List A)
    (h : ∀ e ∈ l, ∃ v, f e = some v) : (l.filterMap f).length = l.length := by
  induction l with
  | nil => rfl
  | cons e l ih =>
    obtain ⟨v, hv⟩ := h e (List.mem_cons_self _ _)
    rw [List.filterMap_cons, hv]
    simp only [List.length_cons]
    rw [ih (fun x hx => h x (List.mem_cons_of_mem _ hx))]

omit [Inhabited P] in
/-- With one entry per key, the closure behind an entry is the closure of its key. -/
theorem entry_of_mem (m : ValueMap K) (σ : Store W P V) (hu : UniqueKeys m) (e : K × Addr)
    (he : e ∈ m) : entry m σ e.1 = σ.cells[e.2]? := by
  unfold entry
  rw [Load_of_mem m e.1 e.2 hu he]; rfl

omit [Inhabited P] in
theorem Held_of_mem (m : ValueMap K) (e : K × Addr) (he : e ∈ m) : Held m e.1 := by
  rw [Held_iff]
  intro hc
  rw [Load_eq_none_iff] at hc
  exact hc (List.mem_map_of_mem Prod.fst he)

omit [Inhabited P] in
theorem memoized_eq (m : ValueMap K) (σ : Store W P V) (hu : UniqueKeys m) :
    memoized m σ = m.filterMap (fun e => Cell.value? σ.cells[e.2]?) := by
  unfold memoized
  rw [List.filterMap_map]
  apply List.filterMap_congr
  intro e he
  simp only [Function.comp]
  rw [entry_of_mem m σ hu e he]

end ValuesFacts

/-! ## Goroutines racing on one key -/

section RaceFacts

variable {K W P V : Type} [DecidableEq K] [Inhabited P]

omit [DecidableEq K] [Inhabited P] in
theorem sum_rank_set_lt (pool : List (Goroutine W P V)) (i : Nat) (t x : Goroutine W P V)
    (h : pool[i]? = some t) (hr : x.rank < t.rank) :
    ((pool.set i x).map Goroutine.rank).sum < (pool.map Goroutine.rank).sum := by
  induction pool generalizing i with
  | nil => simp at h
  | cons y ys ih =>
    cases i with
    | zero =>
      simp only [List.getElem?_cons_zero, Option.some.injEq] at h
      subst h
      simp only [List.set_cons_zero, List.map_cons, List.sum_cons]
      omega
    | succ n =>
      simp only [List.getElem?_cons_succ] at h
      have := ih n h
      simp only [List.set_cons_succ, List.map_cons, List.sum_cons]
      omega

/-- Every step uses up fuel: no goroutine moves for ever. -/
theorem step_fuel (k : K) (i : Nat) (c c1 : Shared K W P V) (h : step k i c = some c1) :
    c1.fuel < c.fuel := by
  unfold step at h
  cases hp : c.pool[i]? with
  | none => simp [hp] at h
  | some t =>
    cases t with
    | entered f =>
      simp only [hp, Option.some.injEq] at h
      subst h
      exact sum_rank_set_lt _ i _ _ hp (by simp [Goroutine.rank])
    | created g =>
      simp only [hp, Get_func, Option.some.injEq] at h
      subst h
      exact sum_rank_set_lt _ i _ _ hp (by simp [Goroutine.rank])
    | got g =>
      simp only [hp] at h
      split at h
      · split at h
        · cases h
        · simp only [Option.some.injEq] at h
          subst h
          exact sum_rank_set_lt _ i _ _ hp (by simp [Goroutine.rank])
      · simp only [Option.some.injEq] at h
        subst h
        exact sum_rank_set_lt _ i _ _ hp (by simp [Goroutine.rank])
    | running g =>
      simp only [hp, Option.some.injEq] at h
      subst h
      exact sum_rank_set_lt _ i _ _ hp (by simp [Goroutine.rank])
    | returned o => simp [hp] at h

omit [DecidableEq K] [Inhabited P] in
theorem get_set_cases (pool : List (Goroutine W P V)) (i j : Nat) (x y : Goroutine W P V)
    (h : (pool.set i x)[j]? = some y) : (j = i ∧ y = x) ∨ (j ≠ i ∧ pool[j]? = some y) := by
  rw [List.getElem?_set] at h
  by_cases hij : i = j
  · rw [if_pos hij] at h
    split at h
    · left; exact ⟨hij.symm, by cases h; rfl⟩
    · cases h
  · rw [if_neg hij] at h
    right; exact ⟨fun hc => hij hc.symm, h⟩

omit [DecidableEq K] [Inhabited P] in
theorem get_set_keep (pool : List (Goroutine W P V)) (i j : Nat) (x y t : Goroutine W P V)
    (hi : pool[i]? = some t) (hj : pool[j]? = some y) (hne : y ≠ t) :
    (pool.set i x)[j]? = some y := by
  have hij : i ≠ j := by
    intro hc; subst hc; rw [hi] at hj; cases hj; exact hne rfl
  rw [List.getElem?_set_ne hij]; exact hj

omit [Inhabited P] in
/-- At the start of the race nothing has run. -/
theorem RaceInv_race (m : ValueMap K) (k : K) (σ : Store W P V) (fs : List (Comp W P V))
    (hk : SyncMap.Load m k = none) : RaceInv k σ.world σ.execs fs (race m σ fs) := by
  refine ⟨?_, ?_, ?_⟩
  · intro f hf
    simp only [race, List.mem_map] at hf
    obtain ⟨f1, hf1, he⟩ := hf
    cases he; exact hf1
  · intro _
    refine ⟨rfl, rfl, rfl, ?_⟩
    intro t ht
    simp only [race, List.mem_map] at ht
    obtain ⟨f1, _, he⟩ := ht
    exact Or.inl ⟨f1, he.symm⟩
  · intro a ha
    simp only [race] at ha
    rw [hk] at ha; cases ha

omit [DecidableEq K] [Inhabited P] in
theorem mem_set_of_ne (pool : List (Goroutine W P V)) (i : Nat) (x t : Goroutine W P V)
    (h : t ∈ pool.set i x) (hne : t ≠ x) : t ∈ pool := by
  rcases List.mem_or_eq_of_mem_set h with h1 | h1
  · exact h1
  · exact absurd h1 hne

/-- A step of a goroutine keeps the invariant of the race. -/
theorem RaceInv_step (k : K) (w0 : W) (e0 : Nat) (fs : List (Comp W P V)) (i : Nat)
    (c c1 : Shared K W P V) (hinv : RaceInv k w0 e0 fs c) (h : step k i c = some c1) :
    RaceInv k w0 e0 fs c1 := by
  obtain ⟨hA, hB, hC⟩ := hinv
  unfold step at h
  cases hp : c.pool[i]? with
  | none => simp [hp] at h
  | some t =>
    have hmem : t ∈ c.pool := List.getElem?_mem hp
    have hi : i < c.pool.length := (List.getElem?_eq_some.1 hp).1
    cases t with
    | entered f =>
      simp only [hp, Option.some.injEq] at h
      subst h
      have hcells : ∀ (y : Addr) (x : Cell W P V), c.store.cells[y]? = some x →
          (OnceValue f c.store).2.cells[y]? = some x := by
        intro y x hy
        simp only [OnceValue]
        rw [List.getElem?_append_left (List.getElem?_eq_some.1 hy).1]; exact hy
      refine ⟨?_, ?_, ?_⟩
      · intro f1 hf1
        exact hA f1 (mem_set_of_ne _ _ _ _ hf1 (by simp))
      · intro hl
        obtain ⟨hw, he, hb, hall⟩ := hB hl
        refine ⟨hw, he, hb, ?_⟩
        intro t ht
        rcases List.mem_or_eq_of_mem_set ht with h1 | h1
        · rcases hall t h1 with ⟨f1, hf1⟩ | ⟨g, f1, hg, hf1, hc⟩
          · exact Or.inl ⟨f1, hf1⟩
          · exact Or.inr ⟨g, f1, hg, hf1, hcells g _ hc⟩
        · exact Or.inr ⟨c.store.cells.length, f, h1, hA f hmem, by simp [OnceValue]⟩
      · intro a ha
        obtain ⟨hg, hr, hph⟩ := hC a ha
        refine ⟨fun g hgm => hg g (mem_set_of_ne _ _ _ _ hgm (by simp)),
          fun g hgm => hr g (mem_set_of_ne _ _ _ _ hgm (by simp)), ?_⟩
        rcases hph with ⟨⟨f0, hf0, hc0⟩, hw, he, hnr, hb⟩ | ⟨f0, hf0, hc0, hw, he, hb, hnrun, hret⟩
        · left
          refine ⟨⟨f0, hf0, hcells a _ hc0⟩, hw, he,
            fun o ho => hnr o (mem_set_of_ne _ _ _ _ ho (by simp)), ?_⟩
          rcases hb with ⟨hb0, hno⟩ | ⟨hb1, i0, hi0, huniq⟩
          · left
            exact ⟨hb0, fun g hgm => hno g (mem_set_of_ne _ _ _ _ hgm (by simp))⟩
          · right
            refine ⟨hb1, i0, get_set_keep _ i i0 _ _ _ hp hi0 (by simp), ?_⟩
            intro j g hj
            rcases get_set_cases _ _ _ _ _ hj with ⟨_, h2⟩ | ⟨_, h2⟩
            · cases h2
            · exact huniq j g h2
        · right
          exact ⟨f0, hf0, hcells a _ hc0, hw, he, hb,
            fun g hgm => hnrun g (mem_set_of_ne _ _ _ _ hgm (by simp)),
            fun o ho => hret o (mem_set_of_ne _ _ _ _ ho (by simp))⟩
    | created g =>
      simp only [hp, Get_func, Option.some.injEq] at h
      subst h
      cases hl : SyncMap.Load c.map k with
      | none =>
        obtain ⟨hw, he, hb, hall⟩ := hB hl
        have hget : SyncMap.LoadOrStore c.map k g = ((g, false), c.map ++ [(k, g)]) := by
          simp [SyncMap.LoadOrStore, hl]
        have hload : SyncMap.Load (c.map ++ [(k, g)]) k = some g := by
          simp [Load_append, hl, SyncMap.Load]
        have hpend : ∃ f ∈ fs, c.store.cells[g]? = some (Cell.pending f) := by
          rcases hall _ hmem with ⟨f1, hf1⟩ | ⟨g1, f1, hg1, hf1, hc⟩
          · cases hf1
          · cases hg1; exact ⟨f1, hf1, hc⟩
        have hnogot : ∀ g1, Goroutine.got g1 ∉ c.pool := by
          intro g1 hg1
          rcases hall _ hg1 with ⟨f1, hf1⟩ | ⟨g2, f1, hg2, _⟩
          · cases hf1
          · cases hg2
        have hnorun : ∀ g1, Goroutine.running g1 ∉ c.pool := by
          intro g1 hg1
          rcases hall _ hg1 with ⟨f1, hf1⟩ | ⟨g2, f1, hg2, _⟩
          · cases hf1
          · cases hg2
        have hnoret : ∀ o, Goroutine.returned o ∉ c.pool := by
          intro o ho
          rcases hall _ ho with ⟨f1, hf1⟩ | ⟨g2, f1, hg2, _⟩
          · cases hf1
          · cases hg2
        rw [hget]
        refine ⟨?_, ?_, ?_⟩
        · intro f1 hf1
          exact hA f1 (mem_set_of_ne _ _ _ _ hf1 (by simp))
        · intro hl1
          rw [show SyncMap.Load (c.map ++ [(k, g)]) k = some g from hload] at hl1
          cases hl1
        · intro a ha
          have hag : g = a := by
            have : SyncMap.Load (c.map ++ [(k, g)]) k = some a := ha
            rw [hload] at this; cases this; rfl
          subst hag
          refine ⟨?_, ?_, ?_⟩
          · intro g1 hg1
            rcases List.mem_or_eq_of_mem_set hg1 with h1 | h1
            · exact absurd h1 (hnogot g1)
            · cases h1; rfl
          · intro g1 hg1
            exact absurd (mem_set_of_ne _ _ _ _ hg1 (by simp)) (hnorun g1)
          · left
            refine ⟨hpend, hw, he,
              fun o ho => hnoret o (mem_set_of_ne _ _ _ _ ho (by simp)), Or.inl ⟨hb, ?_⟩⟩
            intro g1 hg1
            exact absurd (mem_set_of_ne _ _ _ _ hg1 (by simp)) (hnorun g1)
      | some a =>
        have hget : SyncMap.LoadOrStore c.map k g = ((a, true), c.map) := by
          simp [SyncMap.LoadOrStore, hl]
        obtain ⟨hg, hr, hph⟩ := hC a hl
        rw [hget]
        refine ⟨?_, ?_, ?_⟩
        · intro f1 hf1
          exact hA f1 (mem_set_of_ne _ _ _ _ hf1 (by simp))
        · intro hl1
          rw [show SyncMap.Load c.map k = some a from hl] at hl1
          cases hl1
        · intro a1 ha1
          have haa : a = a1 := by
            have : SyncMap.Load c.map k = some a1 := ha1
            rw [hl] at this; cases this; rfl
          subst haa
          refine ⟨?_, fun g1 hg1 => hr g1 (mem_set_of_ne _ _ _ _ hg1 (by simp)), ?_⟩
          · intro g1 hg1
            rcases List.mem_or_eq_of_mem_set hg1 with h1 | h1
            · exact hg g1 h1
            · cases h1; rfl
          · rcases hph with ⟨hc0, hw, he, hnr, hb⟩ | ⟨f0, hf0, hc0, hw, he, hb, hnrun, hret⟩
            · left
              refine ⟨hc0, hw, he,
                fun o ho => hnr o (mem_set_of_ne _ _ _ _ ho (by simp)), ?_⟩
              rcases hb with ⟨hb0, hno⟩ | ⟨hb1, i0, hi0, huniq⟩
              · left
                exact ⟨hb0, fun g hgm => hno g (mem_set_of_ne _ _ _ _ hgm (by simp))⟩
              · right
                refine ⟨hb1, i0, get_set_keep _ i i0 _ _ _ hp hi0 (by simp), ?_⟩
                intro j g1 hj
                rcases get_set_cases _ _ _ _ _ hj with ⟨_, h2⟩ | ⟨_, h2⟩
                · cases h2
                · exact huniq j g1 h2
            · right
              exact ⟨f0, hf0, hc0, hw, he, hb,
                fun g hgm => hnrun g (mem_set_of_ne _ _ _ _ hgm (by simp)),
                fun o ho => hret o (mem_set_of_ne _ _ _ _ ho (by simp))⟩
    | got g =>
      simp only [hp] at h
      cases hl : SyncMap.Load c.map k with
      | none =>
        obtain ⟨_, _, _, hall⟩ := hB hl
        rcases hall _ hmem with ⟨f1, hf1⟩ | ⟨g2, f1, hg2, _⟩
        · cases hf1
        · cases hg2
      | some a =>
        obtain ⟨hg, hr, hph⟩ := hC a hl
        have hga : g = a := hg g hmem
        subst hga
        have hB1 : ∀ (X : Prop), SyncMap.Load c.map k = none → X := by
          intro X hn; rw [hl] at hn; cases hn
        have hsame : ∀ a1, SyncMap.Load c.map k = some a1 → g = a1 := by
          intro a1 h1; rw [hl] at h1; cases h1; rfl
        split at h
        · rename_i f1 hf1
          split at h
          · cases h
          · rename_i hbusy
            simp only [Option.some.injEq] at h
            subst h
            rcases hph with ⟨hc0, hw, he, hnr, hb⟩ | ⟨f0, _, hc0, _⟩
            · have hb0 : c.begun = 0 ∧ ∀ g1, Goroutine.running g1 ∉ c.pool := by
                rcases hb with hb | ⟨_, i0, hi0, _⟩
                · exact hb
                · exfalso
                  apply hbusy
                  rw [List.any_eq_true]
                  exact ⟨_, List.getElem?_mem hi0, by simp [Goroutine.isRunning]⟩
              refine ⟨fun f2 hf2 => hA f2 (mem_set_of_ne _ _ _ _ hf2 (by simp)),
                fun hn => hB1 _ hn, ?_⟩
              intro a1 ha1
              have := hsame a1 ha1
              subst this
              refine ⟨fun g1 hg1 => hg g1 (mem_set_of_ne _ _ _ _ hg1 (by simp)), ?_, ?_⟩
              · intro g1 hg1
                rcases List.mem_or_eq_of_mem_set hg1 with h1 | h1
                · exact absurd h1 (hb0.2 g1)
                · cases h1; rfl
              · left
                refine ⟨hc0, hw, he,
                  fun o ho => hnr o (mem_set_of_ne _ _ _ _ ho (by simp)), Or.inr ⟨?_, i, ?_, ?_⟩⟩
                · show c.begun + 1 = 1
                  rw [hb0.1]
                · exact List.getElem?_set_self hi
                · intro j g1 hj
                  rcases get_set_cases _ _ _ _ _ hj with ⟨h2, _⟩ | ⟨_, h2⟩
                  · exact h2
                  · exact absurd (List.getElem?_mem h2) (hb0.2 g1)
            · rw [hf1] at hc0; cases hc0
        · rename_i hnp
          simp only [Option.some.injEq] at h
          subst h
          rcases hph with ⟨⟨f0, hf0, hc0⟩, _⟩ | ⟨f0, hf0, hc0, hw, he, hb, hnrun, hret⟩
          · exact absurd hc0 (hnp f0)
          · rw [call_done g c.store _ hc0]
            refine ⟨fun f2 hf2 => hA f2 (mem_set_of_ne _ _ _ _ hf2 (by simp)),
              fun hn => hB1 _ hn, ?_⟩
            intro a1 ha1
            have := hsame a1 ha1
            subst this
            refine ⟨fun g1 hg1 => hg g1 (mem_set_of_ne _ _ _ _ hg1 (by simp)),
              fun g1 hg1 => hr g1 (mem_set_of_ne _ _ _ _ hg1 (by simp)), Or.inr ?_⟩
            refine ⟨f0, hf0, hc0, hw, he, hb,
              fun g1 hg1 => hnrun g1 (mem_set_of_ne _ _ _ _ hg1 (by simp)), ?_⟩
            intro o ho
            rcases List.mem_or_eq_of_mem_set ho with h1 | h1
            · exact hret o h1
            · cases h1; rfl
    | running g =>
      simp only [hp, Option.some.injEq] at h
      subst h
      cases hl : SyncMap.Load c.map k with
      | none =>
        obtain ⟨_, _, _, hall⟩ := hB hl
        rcases hall _ hmem with ⟨f1, hf1⟩ | ⟨g2, f1, hg2, _⟩
        · cases hf1
        · cases hg2
      | some a =>
        obtain ⟨hg, hr, hph⟩ := hC a hl
        have hga : g = a := hr g hmem
        subst hga
        have hB1 : ∀ (X : Prop), SyncMap.Load c.map k = none → X := by
          intro X hn; rw [hl] at hn; cases hn
        have hsame : ∀ a1, SyncMap.Load c.map k = some a1 → g = a1 := by
          intro a1 h1; rw [hl] at h1; cases h1; rfl
        rcases hph with ⟨⟨f0, hf0, hc0⟩, hw, he, hnr, hb⟩ | ⟨f0, hf0, hc0, hw, he, hb, hnrun, hret⟩
        · rcases hb with ⟨_, hno⟩ | ⟨hb1, i0, hi0, huniq⟩
          · exact absurd hmem (hno g)
          · have hii : i = i0 := huniq i g hp
            have hglt : g < c.store.cells.length := (List.getElem?_eq_some.1 hc0).1
            rw [call_pending g c.store f0 hc0, hw]
            refine ⟨fun f2 hf2 => hA f2 (mem_set_of_ne _ _ _ _ hf2 (by simp)),
              fun hn => hB1 _ hn, ?_⟩
            intro a1 ha1
            have := hsame a1 ha1
            subst this
            refine ⟨fun g1 hg1 => hg g1 (mem_set_of_ne _ _ _ _ hg1 (by simp)),
              fun g1 hg1 => hr g1 (mem_set_of_ne _ _ _ _ hg1 (by simp)), Or.inr ?_⟩
            refine ⟨f0, hf0, ?_, rfl, ?_, hb1, ?_, ?_⟩
            · simp [List.getElem?_set, hglt]
            · show c.store.execs + 1 = e0 + 1
              rw [he]
            · intro g1 hg1
              obtain ⟨j, hj⟩ := List.mem_iff_getElem?.1 hg1
              rcases get_set_cases _ _ _ _ _ hj with ⟨_, h2⟩ | ⟨h1, h2⟩
              · cases h2
              · exact h1 ((huniq j g1 h2).trans hii.symm)
            · intro o ho
              rcases List.mem_or_eq_of_mem_set ho with h1 | h1
              · exact absurd h1 (hnr o)
              · cases h1; rfl
        · exact absurd hmem (hnrun g)
    | returned o => simp [hp] at h

/-- A step keeps the number of goroutines. -/
theorem step_length (k : K) (i : Nat) (c c1 : Shared K W P V) (h : step k i c = some c1) :
    c1.pool.length = c.pool.length := by
  unfold step at h
  cases hp : c.pool[i]? with
  | none => simp [hp] at h
  | some t =>
    cases t with
    | entered f => simp only [hp, Option.some.injEq] at h; subst h; simp
    | created g => simp only [hp, Get_func, Option.some.injEq] at h; subst h; simp
    | got g =>
      simp only [hp] at h
      split at h
      · split at h
        · cases h
        · simp only [Option.some.injEq] at h; subst h; simp
      · simp only [Option.some.injEq] at h; subst h; simp
    | running g => simp only [hp, Option.some.injEq] at h; subst h; simp
    | returned o => simp [hp] at h

/-- Every state a schedule reaches satisfies the invariant, has as many
goroutines as at the start, and has used up one unit of fuel per step at least. -/
theorem RaceInv_run (k : K) (w0 : W) (e0 : Nat) (fs : List (Comp W P V)) (sched : List Nat)
    (c c1 : Shared K W P V) (hinv : RaceInv k w0 e0 fs c) (h : run k sched c = some c1) :
    RaceInv k w0 e0 fs c1 ∧ c1.pool.length = c.pool.length ∧
      sched.length + c1.fuel ≤ c.fuel := by
  induction sched generalizing c with
  | nil =>
    simp only [run, Option.some.injEq] at h
    subst h
    exact ⟨hinv, rfl, by simp⟩
  | cons i rest ih =>
    simp only [run] at h
    cases hs : step k i c with
    | none => rw [hs] at h; cases h
    | some c2 =>
      rw [hs] at h
      simp only [Option.some_bind] at h
      obtain ⟨h1, h2, h3⟩ := ih c2 (RaceInv_step k w0 e0 fs i c c2 hinv hs) h
      have hf := step_fuel k i c c2 hs
      refine ⟨h1, by rw [h2, step_length k i c c2 hs], ?_⟩
      simp only [List.length_cons]
      omega

/-- No deadlock: as long as a goroutine has not returned, some goroutine can
move.  A goroutine only ever waits for one that is inside a computation, and
that one can finish. -/
theorem step_progress (k : K) (c : Shared K W P V) :
    (∀ t ∈ c.pool, ∃ o, t = Goroutine.returned o) ∨ ∃ i c1, step k i c = some c1 := by
  by_cases hall : ∀ t ∈ c.pool, ∃ o, t = Goroutine.returned o
  · exact Or.inl hall
  · right
    have key : ∃ i, (step k i c).isSome = true := by
      simp only [not_forall] at hall
      obtain ⟨t, ht, hnot⟩ := hall
      obtain ⟨i, hi⟩ := List.mem_iff_getElem?.1 ht
      cases t with
      | entered f => exact ⟨i, by simp [step, hi]⟩
      | created g => exact ⟨i, by simp [step, hi, Get_func]⟩
      | running g => exact ⟨i, by simp [step, hi]⟩
      | returned o => exact absurd ⟨o, rfl⟩ hnot
      | got g =>
        cases hc : c.store.cells[g]? with
        | none => exact ⟨i, by simp [step, hi, hc]⟩
        | some x =>
          cases x with
          | done o => exact ⟨i, by simp [step, hi, hc]⟩
          | pending f =>
            by_cases hbusy : c.pool.any (Goroutine.isRunning g) = true
            · rw [List.any_eq_true] at hbusy
              obtain ⟨t1, ht1, hr1⟩ := hbusy
              obtain ⟨j, hj⟩ := List.mem_iff_getElem?.1 ht1
              cases t1 with
              | running g1 => exact ⟨j, by simp [step, hj]⟩
              | entered f1 => simp [Goroutine.isRunning] at hr1
              | created g1 => simp [Goroutine.isRunning] at hr1
              | got g1 => simp [Goroutine.isRunning] at hr1
              | returned o1 => simp [Goroutine.isRunning] at hr1
            · exact ⟨i, by simp [step, hi, hc, hbusy]⟩
    obtain ⟨i, hi⟩ := key
    exact ⟨i, Option.isSome_iff_exists.1 hi⟩

/-- From every state of the race some schedule lets every goroutine return. -/
theorem RaceInv_finishes (k : K) (w0 : W) (e0 : Nat) (fs : List (Comp W P V)) (n : Nat)
    (c : Shared K W P V) (hinv : RaceInv k w0 e0 fs c) (hn : c.fuel ≤ n) :
    ∃ rest c1, run k rest c = some c1 ∧ ∀ t ∈ c1.pool, ∃ o, t = Goroutine.returned o := by
  induction n generalizing c with
  | zero =>
    rcases step_progress k c with hall | ⟨i, c1, hs⟩
    · exact ⟨[], c, rfl, hall⟩
    · have := step_fuel k i c c1 hs
      omega
  | succ n ih =>
    rcases step_progress k c with hall | ⟨i, c1, hs⟩
    · exact ⟨[], c, rfl, hall⟩
    · have hf := step_fuel k i c c1 hs
      obtain ⟨rest, c2, hr, hall⟩ :=
        ih c1 (RaceInv_step k w0 e0 fs i c c1 hinv hs) (by omega)
      exact ⟨i :: rest, c2, by simp [run, hs, hr], hall⟩

omit [DecidableEq K] [Inhabited P] in
theorem fuel_race (m : ValueMap K) (σ : Store W P V) (fs : List (Comp W P V)) :
    (race m σ fs).fuel = 4 * fs.length := by
  unfold Shared.fuel race
  induction fs with
  | nil => rfl
  | cons f fs ih =>
    simp only [List.map_cons, List.sum_cons, List.length_cons, Goroutine.rank] at ih ⊢
    omega

/-- A goroutine that runs alone makes the steps of `ValueMap.Do`. -/
theorem run_alone_eq_Do (m : ValueMap K) (k : K) (f : Comp W P V) (σ : Store W P V) :
    ∃ sched n, run k sched (race m σ [f])
      = some { map := (ValueMap.Do m k f σ).2.1, store := (ValueMap.Do m k f σ).2.2,
               begun := n, pool := [Goroutine.returned (ValueMap.Do m k f σ).1] } := by
  have h1 : (OnceValue f σ).1 = σ.cells.length := rfl
  cases hc : (OnceValue f σ).2.cells[(SyncMap.LoadOrStore m k σ.cells.length).1.1]? with
  | none =>
    exact ⟨[0, 0, 0], 0, by simp [run, step, race, h1, hc, Do_eq, Get_func]⟩
  | some x =>
    cases x with
    | done o => exact ⟨[0, 0, 0], 0, by simp [run, step, race, h1, hc, Do_eq, Get_func]⟩
    | pending f1 =>
      exact ⟨[0, 0, 0, 0], 1,
        by simp [run, step, race, h1, hc, Do_eq, Get_func, Goroutine.isRunning]⟩

end RaceFacts

/-! ## Memoization per key -/

section Claims

variable {K W P V V1 V2 : Type} [DecidableEq K] [Inhabited P]

/-- C1: when the calls `Do(k, f1)`, ..., `Do(k, fn)` are made in a row on a key
that is not held and `f1` returns `v`, every one of the `n` calls returns `v`,
one computation body has been entered in total, and the caller's state is the
one `f1` left (so `f2`, ..., `fn` did not run).  This holds for `ValueMap.Do`,
for `FuncMap.Do` and for `ValuesMap.Do`. -/
theorem Do_first_computation_shared :
    (∀ (m : ValueMap K) (k : K) (f1 : Comp W P V) (fs : List (Comp W P V))
        (σ : Store W P V) (v : V),
      ¬ Held m k → (f1 σ.world).1 = Outcome.ret v →
      (eachCall (fun m f σ => ValueMap.Do m k f σ) m (f1 :: fs) σ).1
          = List.replicate (fs.length + 1) (Outcome.ret v) ∧
      (eachCall (fun m f σ => ValueMap.Do m k f σ) m (f1 :: fs) σ).2.2.execs = σ.execs + 1 ∧
      (eachCall (fun m f σ => ValueMap.Do m k f σ) m (f1 :: fs) σ).2.2.world
          = (f1 σ.world).2) ∧
    (∀ (m : FuncMap K) (k : K) (f1 : Comp W P Unit) (fs : List (Comp W P Unit))
        (σ : Store W P Unit),
      ¬ Held m k → (f1 σ.world).1 = Outcome.ret () →
      (eachCall (fun m f σ => FuncMap.Do m k f σ) m (f1 :: fs) σ).1
          = List.replicate (fs.length + 1) (Outcome.ret ()) ∧
      (eachCall (fun m f σ => FuncMap.Do m k f σ) m (f1 :: fs) σ).2.2.execs = σ.execs + 1 ∧
      (eachCall (fun m f σ => FuncMap.Do m k f σ) m (f1 :: fs) σ).2.2.world
          = (f1 σ.world).2) ∧
    (∀ (m : ValuesMap K) (k : K) (f1 : Comp W P (V1 × V2)) (fs : List (Comp W P (V1 × V2)))
        (σ : Store W P (V1 × V2)) (v1 : V1) (v2 : V2),
      ¬ Held m k → (f1 σ.world).1 = Outcome.ret (v1, v2) →
      (eachCall (fun m f σ => ValuesMap.Do m k f σ) m (f1 :: fs) σ).1
          = List.replicate (fs.length + 1) (Outcome.ret (v1, v2)) ∧
      (eachCall (fun m f σ => ValuesMap.Do m k f σ) m (f1 :: fs) σ).2.2.execs = σ.execs + 1 ∧
      (eachCall (fun m f σ => ValuesMap.Do m k f σ) m (f1 :: fs) σ).2.2.world
          = (f1 σ.world).2) := by
  refine ⟨?_, ?_, ?_⟩
  · intro m k f1 fs σ v hk hv
    have h := eachCall_Do_fresh k f1 fs m σ ((not_Held_iff m k).1 hk)
    exact ⟨by rw [h.1, hv], h.2.2.2, h.2.2.1⟩
  · intro m k f1 fs σ hk hv
    have h := eachCall_Do_fresh k f1 fs m σ ((not_Held_iff m k).1 hk)
    exact ⟨by rw [← hv]; exact h.1, h.2.2.2, h.2.2.1⟩
  · intro m k f1 fs σ v1 v2 hk hv
    have h := eachCall_Do_fresh k f1 fs m σ ((not_Held_iff m k).1 hk)
    exact ⟨by rw [← hv]; exact h.1, h.2.2.2, h.2.2.1⟩

/-- C2: when the computation of the first `Do(k, f)` on a key that is not held
panics with `p`, that call panics with `p` and so does every later `Do(k, g)`;
one computation body has been entered in total and the caller's state is the
one `f` left, however many calls follow.  This holds for `ValueMap.Do`, for
`FuncMap.Do` and for `ValuesMap.Do`. -/
theorem Do_panic_replayed :
    (∀ (m : ValueMap K) (k : K) (f : Comp W P V) (gs : List (Comp W P V))
        (σ : Store W P V) (p : P),
      ¬ Held m k → (f σ.world).1 = Outcome.panic p →
      (ValueMap.Do m k f σ).1 = Outcome.panic p ∧
      (eachCall (fun m f σ => ValueMap.Do m k f σ) m (f :: gs) σ).1
          = List.replicate (gs.length + 1) (Outcome.panic p) ∧
      (eachCall (fun m f σ => ValueMap.Do m k f σ) m (f :: gs) σ).2.2.execs = σ.execs + 1 ∧
      (eachCall (fun m f σ => ValueMap.Do m k f σ) m (f :: gs) σ).2.2.world
          = (f σ.world).2) ∧
    (∀ (m : FuncMap K) (k : K) (f : Comp W P Unit) (gs : List (Comp W P Unit))
        (σ : Store W P Unit) (p : P),
      ¬ Held m k → (f σ.world).1 = Outcome.panic p →
      (FuncMap.Do m k f σ).1 = Outcome.panic p ∧
      (eachCall (fun m f σ => FuncMap.Do m k f σ) m (f :: gs) σ).1
          = List.replicate (gs.length + 1) (Outcome.panic p) ∧
      (eachCall (fun m f σ => FuncMap.Do m k f σ) m (f :: gs) σ).2.2.execs = σ.execs + 1 ∧
      (eachCall (fun m f σ => FuncMap.Do m k f σ) m (f :: gs) σ).2.2.world
          = (f σ.world).2) ∧
    (∀ (m : ValuesMap K) (k : K) (f : Comp W P (V1 × V2)) (gs : List (Comp W P (V1 × V2)))
        (σ : Store W P (V1 × V2)) (p : P),
      ¬ Held m k → (f σ.world).1 = Outcome.panic p →
      (ValuesMap.Do m k f σ).1 = Outcome.panic p ∧
      (eachCall (fun m f σ => ValuesMap.Do m k f σ) m (f :: gs) σ).1
          = List.replicate (gs.length + 1) (Outcome.panic p) ∧
      (eachCall (fun m f σ => ValuesMap.Do m k f σ) m (f :: gs) σ).2.2.execs = σ.execs + 1 ∧
      (eachCall (fun m f σ => ValuesMap.Do m k f σ) m (f :: gs) σ).2.2.world
          = (f σ.world).2) := by
  have key : ∀ (U : Type) (m : ValueMap K) (k : K) (f : Comp W P U) (gs : List (Comp W P U))
      (σ : Store W P U) (p : P),
      ¬ Held m k → (f σ.world).1 = Outcome.panic p →
      (ValueMap.Do m k f σ).1 = Outcome.panic p ∧
      (eachCall (fun m f σ => ValueMap.Do m k f σ) m (f :: gs) σ).1
          = List.replicate (gs.length + 1) (Outcome.panic p) ∧
      (eachCall (fun m f σ => ValueMap.Do m k f σ) m (f :: gs) σ).2.2.execs = σ.execs + 1 ∧
      (eachCall (fun m f σ => ValueMap.Do m k f σ) m (f :: gs) σ).2.2.world
          = (f σ.world).2 := by
    intro U m k f gs σ p hk hp
    have hl := (not_Held_iff m k).1 hk
    have h := eachCall_Do_fresh k f gs m σ hl
    exact ⟨by rw [Do_fresh m k f σ hl]; exact hp, by rw [h.1, hp], h.2.2.2, h.2.2.1⟩
  exact ⟨key V, key Unit, key (V1 × V2)⟩

/-- C3: after `Do(k, f1)` and `Delete(k)`, the call `Do(k, f2)` runs `f2` (one
more computation body is entered) and ends the way `f2` ends on the caller's
state of that moment, whatever `f1` did; when `k` was not held before the first
call, `f1` ran there, and two computation bodies have been entered over the
two epochs.  This holds for `ValueMap`, `FuncMap` and `ValuesMap`. -/
theorem Do_after_Delete_runs_again :
    (∀ (m : ValueMap K) (k : K) (f1 f2 : Comp W P V) (σ : Store W P V),
      (ValueMap.Do (ValueMap.Delete (ValueMap.Do m k f1 σ).2.1 k) k f2
          (ValueMap.Do m k f1 σ).2.2).1 = (f2 (ValueMap.Do m k f1 σ).2.2.world).1 ∧
      (ValueMap.Do (ValueMap.Delete (ValueMap.Do m k f1 σ).2.1 k) k f2
          (ValueMap.Do m k f1 σ).2.2).2.2.world = (f2 (ValueMap.Do m k f1 σ).2.2.world).2 ∧
      (ValueMap.Do (ValueMap.Delete (ValueMap.Do m k f1 σ).2.1 k) k f2
          (ValueMap.Do m k f1 σ).2.2).2.2.execs = (ValueMap.Do m k f1 σ).2.2.execs + 1 ∧
      (¬ Held m k →
        (ValueMap.Do m k f1 σ).1 = (f1 σ.world).1 ∧
        (ValueMap.Do m k f1 σ).2.2.world = (f1 σ.world).2 ∧
        (ValueMap.Do (ValueMap.Delete (ValueMap.Do m k f1 σ).2.1 k) k f2
            (ValueMap.Do m k f1 σ).2.2).2.2.execs = σ.execs + 2)) ∧
    (∀ (m : FuncMap K) (k : K) (f1 f2 : Comp W P Unit) (σ : Store W P Unit),
      (FuncMap.Do (FuncMap.Delete (FuncMap.Do m k f1 σ).2.1 k) k f2
          (FuncMap.Do m k f1 σ).2.2).1 = (f2 (FuncMap.Do m k f1 σ).2.2.world).1 ∧
      (FuncMap.Do (FuncMap.Delete (FuncMap.Do m k f1 σ).2.1 k) k f2
          (FuncMap.Do m k f1 σ).2.2).2.2.world = (f2 (FuncMap.Do m k f1 σ).2.2.world).2 ∧
      (FuncMap.Do (FuncMap.Delete (FuncMap.Do m k f1 σ).2.1 k) k f2
          (FuncMap.Do m k f1 σ).2.2).2.2.execs = (FuncMap.Do m k f1 σ).2.2.execs + 1 ∧
      (¬ Held m k →
        (FuncMap.Do m k f1 σ).1 = (f1 σ.world).1 ∧
        (FuncMap.Do m k f1 σ).2.2.world = (f1 σ.world).2 ∧
        (FuncMap.Do (FuncMap.Delete (FuncMap.Do m k f1 σ).2.1 k) k f2
            (FuncMap.Do m k f1 σ).2.2).2.2.execs = σ.execs + 2)) ∧
    (∀ (m : ValuesMap K) (k : K) (f1 f2 : Comp W P (V1 × V2)) (σ : Store W P (V1 × V2)),
      (ValuesMap.Do (ValuesMap.Delete (ValuesMap.Do m k f1 σ).2.1 k) k f2
          (ValuesMap.Do m k f1 σ).2.2).1 = (f2 (ValuesMap.Do m k f1 σ).2.2.world).1 ∧
      (ValuesMap.Do (ValuesMap.Delete (ValuesMap.Do m k f1 σ).2.1 k) k f2
          (ValuesMap.Do m k f1 σ).2.2).2.2.world = (f2 (ValuesMap.Do m k f1 σ).2.2.world).2 ∧
      (ValuesMap.Do (ValuesMap.Delete (ValuesMap.Do m k f1 σ).2.1 k) k f2
          (ValuesMap.Do m k f1 σ).2.2).2.2.execs = (ValuesMap.Do m k f1 σ).2.2.execs + 1 ∧
      (¬ Held m k →
        (ValuesMap.Do m k f1 σ).1 = (f1 σ.world).1 ∧
        (ValuesMap.Do m k f1 σ).2.2.world = (f1 σ.world).2 ∧
        (ValuesMap.Do (ValuesMap.Delete (ValuesMap.Do m k f1 σ).2.1 k) k f2
            (ValuesMap.Do m k f1 σ).2.2).2.2.execs = σ.execs + 2)) := by
  have key : ∀ (U : Type) (m : ValueMap K) (k : K) (f1 f2 : Comp W P U) (σ : Store W P U),
      (ValueMap.Do (ValueMap.Delete (ValueMap.Do m k f1 σ).2.1 k) k f2
          (ValueMap.Do m k f1 σ).2.2).1 = (f2 (ValueMap.Do m k f1 σ).2.2.world).1 ∧
      (ValueMap.Do (ValueMap.Delete (ValueMap.Do m k f1 σ).2.1 k) k f2
          (ValueMap.Do m k f1 σ).2.2).2.2.world = (f2 (ValueMap.Do m k f1 σ).2.2.world).2 ∧
      (ValueMap.Do (ValueMap.Delete (ValueMap.Do m k f1 σ).2.1 k) k f2
          (ValueMap.Do m k f1 σ).2.2).2.2.execs = (ValueMap.Do m k f1 σ).2.2.execs + 1 ∧
      (¬ Held m k →
        (ValueMap.Do m k f1 σ).1 = (f1 σ.world).1 ∧
        (ValueMap.Do m k f1 σ).2.2.world = (f1 σ.world).2 ∧
        (ValueMap.Do (ValueMap.Delete (ValueMap.Do m k f1 σ).2.1 k) k f2
            (ValueMap.Do m k f1 σ).2.2).2.2.execs = σ.execs + 2) := by
    intro U m k f1 f2 σ
    have hd : SyncMap.Load (ValueMap.Delete (ValueMap.Do m k f1 σ).2.1 k) k = none :=
      Load_Delete_self _ k
    have h2 := Do_fresh _ k f2 (ValueMap.Do m k f1 σ).2.2 hd
    refine ⟨by rw [h2], by rw [h2], by rw [h2], ?_⟩
    intro hk
    have h1 := Do_fresh m k f1 σ ((not_Held_iff m k).1 hk)
    refine ⟨by rw [h1], by rw [h1], ?_⟩
    rw [h2]; simp only [h1]
  exact ⟨key V, key Unit, key (V1 × V2)⟩

/-- What `Map.Get(k, d)` does.  Away from the nil interface value it returns the
value stored for `k` when there is one and leaves the map as it is; when `k` is
not held it returns the default `d` and stores it under `k`, so that the next
`Get(k, d')` returns `d` whatever `d'` is, and `Len` has grown by one.  When the
value it found, or the default it has just stored, is the nil interface value,
it panics. -/
theorem Map_Get_cases [GoType V] (m : Map K V) (k : K) (d : V) :
    (∀ v, SyncMap.Load m k = some v → GoType.isNil v = false →
      Map.Get (P := P) m k d = (Outcome.ret v, m)) ∧
    (¬ Held m k → GoType.isNil d = false →
      (Map.Get (P := P) m k d).1 = Outcome.ret d ∧
      SyncMap.Load (Map.Get (P := P) m k d).2 k = some d ∧
      (∀ d', Map.Get (P := P) (Map.Get (P := P) m k d).2 k d'
        = (Outcome.ret d, (Map.Get (P := P) m k d).2)) ∧
      Map.Len (Map.Get (P := P) m k d).2 = Map.Len m + 1) ∧
    (∀ v, SyncMap.Load m k = some v → GoType.isNil v = true →
      Map.Get (P := P) m k d = (Outcome.panic default, m)) ∧
    (¬ Held m k → GoType.isNil d = true →
      Map.Get (P := P) m k d = (Outcome.panic default, m ++ [(k, d)])) := by
  refine ⟨?_, ?_, ?_, ?_⟩
  · intro v hv hn
    simp [Map.Get, SyncMap.LoadOrStore, hv, assertType, hn]
  · intro hk hn
    have hl := (not_Held_iff m k).1 hk
    have hg : Map.Get (P := P) m k d = (Outcome.ret d, m ++ [(k, d)]) := by
      simp [Map.Get, SyncMap.LoadOrStore, hl, assertType, hn]
    have hL : SyncMap.Load (m ++ [(k, d)]) k = some d := by
      simp [Load_append, hl, SyncMap.Load]
    rw [hg]
    refine ⟨rfl, hL, ?_, ?_⟩
    · intro d'
      simp [Map.Get, SyncMap.LoadOrStore, hL, assertType, hn]
    · simp [Len_eq_length]
  · intro v hv hn
    simp [Map.Get, SyncMap.LoadOrStore, hv, assertType, hn]
  · intro hk hn
    have hl := (not_Held_iff m k).1 hk
    simp [Map.Get, SyncMap.LoadOrStore, hl, assertType, hn]

/-- C10: on a `Map[int, any]`, `Get(1, nil)` on the empty map stores the nil
default under key 1 and then panics on `v.(V)` instead of returning the default;
the following `Get(1, 5)` finds the key, leaves the map as it is, and panics
again instead of returning the stored value. -/
theorem Map_Get_nil_value_panics :
    Map.Get (P := String) ([] : Map Nat (Option Nat)) 1 none
      = (Outcome.panic default, [(1, none)]) ∧
    Map.Get (P := String) ([(1, none)] : Map Nat (Option Nat)) 1 (some 5)
      = (Outcome.panic default, [(1, none)]) :=
  ⟨rfl, rfl⟩

/-- The `Len` bookkeeping of `Do` and `Delete`, for any result type. -/
theorem Len_Do_Delete (U : Type) (m : ValueMap K) (k : K) (f : Comp W P U) (σ : Store W P U) :
    (¬ Held m k → ValueMap.Len (ValueMap.Do m k f σ).2.1 = ValueMap.Len m + 1) ∧
    (Held m k → ValueMap.Len (ValueMap.Do m k f σ).2.1 = ValueMap.Len m) ∧
    (UniqueKeys m → Held m k → ValueMap.Len (ValueMap.Delete m k) + 1 = ValueMap.Len m) ∧
    (¬ Held m k → ValueMap.Len (ValueMap.Delete m k) = ValueMap.Len m) := by
  have hmap : (ValueMap.Do m k f σ).2.1 = (SyncMap.LoadOrStore m k σ.cells.length).2 := rfl
  refine ⟨?_, ?_, ?_, ?_⟩
  · intro hk
    have hl := (not_Held_iff m k).1 hk
    rw [hmap]
    simp [ValueMap.Len, Len_eq_length, SyncMap.LoadOrStore, hl]
  · intro hk
    have hl := (Held_iff m k).1 hk
    rw [hmap]
    cases h : SyncMap.Load m k with
    | none => exact absurd h hl
    | some a => simp [SyncMap.LoadOrStore, h]
  · intro hu hk
    have hl := (Held_iff m k).1 hk
    simp only [ValueMap.Len, ValueMap.Delete, Map.Delete, Len_eq_length]
    exact length_Delete_held m k hu hl
  · intro hk
    have hl := (not_Held_iff m k).1 hk
    simp only [ValueMap.Delete, Map.Delete]
    rw [Delete_of_not_held m k hl]

/-- C6: `Len` counts the held keys.  It is 0 on a fresh map; `Do(k, f)` on a key
that is not held adds one (whatever `f` does, also when it panics); `Do(k, f)`
on a held key keeps it; `Delete(k)` on a held key takes one off; `Delete(k)` on
a key that is not held keeps it.  This holds for `ValueMap`, `FuncMap`,
`ValuesMap` and, through `Get`, for `LazyValueMap`. -/
theorem Len_counts_held_keys :
    (ValueMap.Len ([] : ValueMap K) = 0 ∧
      ∀ (m : ValueMap K) (k : K) (f : Comp W P V) (σ : Store W P V),
        (¬ Held m k → ValueMap.Len (ValueMap.Do m k f σ).2.1 = ValueMap.Len m + 1) ∧
        (Held m k → ValueMap.Len (ValueMap.Do m k f σ).2.1 = ValueMap.Len m) ∧
        (UniqueKeys m → Held m k → ValueMap.Len (ValueMap.Delete m k) + 1 = ValueMap.Len m) ∧
        (¬ Held m k → ValueMap.Len (ValueMap.Delete m k) = ValueMap.Len m)) ∧
    (FuncMap.Len ([] : FuncMap K) = 0 ∧
      ∀ (m : FuncMap K) (k : K) (f : Comp W P Unit) (σ : Store W P Unit),
        (¬ Held m k → FuncMap.Len (FuncMap.Do m k f σ).2.1 = FuncMap.Len m + 1) ∧
        (Held m k → FuncMap.Len (FuncMap.Do m k f σ).2.1 = FuncMap.Len m) ∧
        (UniqueKeys m → Held m k → FuncMap.Len (FuncMap.Delete m k) + 1 = FuncMap.Len m) ∧
        (¬ Held m k → FuncMap.Len (FuncMap.Delete m k) = FuncMap.Len m)) ∧
    (ValuesMap.Len ([] : ValuesMap K) = 0 ∧
      ∀ (m : ValuesMap K) (k : K) (f : Comp W P (V1 × V2)) (σ : Store W P (V1 × V2)),
        (¬ Held m k → ValuesMap.Len (ValuesMap.Do m k f σ).2.1 = ValuesMap.Len m + 1) ∧
        (Held m k → ValuesMap.Len (ValuesMap.Do m k f σ).2.1 = ValuesMap.Len m) ∧
        (UniqueKeys m → Held m k →
          ValuesMap.Len (ValuesMap.Delete m k) + 1 = ValuesMap.Len m) ∧
        (¬ Held m k → ValuesMap.Len (ValuesMap.Delete m k) = ValuesMap.Len m)) ∧
    (∀ (p : LazyValueMap K W P V) (k : K) (σ : Store W P V),
        (p.entries = [] → LazyValueMap.Len p = 0) ∧
        (¬ Held p.entries k →
          LazyValueMap.Len (LazyValueMap.Get p k σ).2.1 = LazyValueMap.Len p + 1) ∧
        (Held p.entries k →
          LazyValueMap.Len (LazyValueMap.Get p k σ).2.1 = LazyValueMap.Len p) ∧
        (UniqueKeys p.entries → Held p.entries k →
          LazyValueMap.Len (LazyValueMap.Delete p k) + 1 = LazyValueMap.Len p) ∧
        (¬ Held p.entries k →
          LazyValueMap.Len (LazyValueMap.Delete p k) = LazyValueMap.Len p)) := by
  refine ⟨⟨rfl, fun m k f σ => Len_Do_Delete V m k f σ⟩,
    ⟨rfl, fun m k f σ => Len_Do_Delete Unit m k f σ⟩,
    ⟨rfl, fun m k f σ => Len_Do_Delete (V1 × V2) m k f σ⟩, ?_⟩
  intro p k σ
  have h := Len_Do_Delete V p.entries k (fun w => p.New k w) σ
  exact ⟨fun he => by rw [LazyValueMap.Len, he]; rfl, h.1, h.2.1, h.2.2.1, h.2.2.2⟩

/-- C9: the function returned by `Value(f)`, called `n + 1` times in a row when
`f` returns `v`: every call returns `v`; `f` is not invoked by `Value` itself,
it is invoked by the first call, and one computation body has been entered
after all the calls, the caller's state being the one `f` left.  The same holds
for `Func(f)` and for `Values(f)`, which returns the same pair on every call. -/
theorem Value_invokes_once :
    (∀ (f : Comp W P V) (n : Nat) (σ : Store W P V) (v : V),
      (f σ.world).1 = Outcome.ret v →
      (callTimes (Value f σ).1 (n + 1) (Value f σ).2).1
          = List.replicate (n + 1) (Outcome.ret v) ∧
      (callTimes (Value f σ).1 (n + 1) (Value f σ).2).2.world = (f σ.world).2 ∧
      (callTimes (Value f σ).1 (n + 1) (Value f σ).2).2.execs = σ.execs + 1 ∧
      (callTimes (Value f σ).1 1 (Value f σ).2).2.execs = σ.execs + 1 ∧
      (Value f σ).2.execs = σ.execs ∧ (Value f σ).2.world = σ.world) ∧
    (∀ (f : Comp W P Unit) (n : Nat) (σ : Store W P Unit),
      (f σ.world).1 = Outcome.ret () →
      (callTimes (Func f σ).1 (n + 1) (Func f σ).2).1
          = List.replicate (n + 1) (Outcome.ret ()) ∧
      (callTimes (Func f σ).1 (n + 1) (Func f σ).2).2.world = (f σ.world).2 ∧
      (callTimes (Func f σ).1 (n + 1) (Func f σ).2).2.execs = σ.execs + 1 ∧
      (callTimes (Func f σ).1 1 (Func f σ).2).2.execs = σ.execs + 1 ∧
      (Func f σ).2.execs = σ.execs ∧ (Func f σ).2.world = σ.world) ∧
    (∀ (f : Comp W P (V1 × V2)) (n : Nat) (σ : Store W P (V1 × V2)) (v1 : V1) (v2 : V2),
      (f σ.world).1 = Outcome.ret (v1, v2) →
      (callTimes (Values f σ).1 (n + 1) (Values f σ).2).1
          = List.replicate (n + 1) (Outcome.ret (v1, v2)) ∧
      (callTimes (Values f σ).1 (n + 1) (Values f σ).2).2.world = (f σ.world).2 ∧
      (callTimes (Values f σ).1 (n + 1) (Values f σ).2).2.execs = σ.execs + 1 ∧
      (callTimes (Values f σ).1 1 (Values f σ).2).2.execs = σ.execs + 1 ∧
      (Values f σ).2.execs = σ.execs ∧ (Values f σ).2.world = σ.world) := by
  refine ⟨?_, ?_, ?_⟩
  · intro f n σ v hv
    have h := callTimes_fresh f n σ
    rw [hv] at h
    exact h
  · intro f n σ hv
    have h := callTimes_fresh f n σ
    rw [hv] at h
    exact h
  · intro f n σ v1 v2 hv
    have h := callTimes_fresh f n σ
    rw [hv] at h
    exact h

/-- C8: `LazyValueMap.Get(k)` is `Do(k, () -> New(k))` on the backing `ValueMap`
(same outcome, same map, same program state, `New` untouched).  On a key that
is not held, `n + 1` calls of `Get(k)` in a row enter `New(k)` once, on the
first call, and every call ends the way that run of `New(k)` ended, whatever
`New` would produce on the later states; after `Delete(k)` the next `Get(k)`
enters `New(k)` once more. -/
theorem LazyValueMap_Get_is_Do (p : LazyValueMap K W P V) (k : K) (n : Nat)
    (σ : Store W P V) :
    ((LazyValueMap.Get p k σ).1 = (ValueMap.Do p.entries k (fun w => p.New k w) σ).1 ∧
      (LazyValueMap.Get p k σ).2.1.entries
        = (ValueMap.Do p.entries k (fun w => p.New k w) σ).2.1 ∧
      (LazyValueMap.Get p k σ).2.1.New = p.New ∧
      (LazyValueMap.Get p k σ).2.2 = (ValueMap.Do p.entries k (fun w => p.New k w) σ).2.2) ∧
    (¬ Held p.entries k →
      (eachCall (fun p (_ : Unit) σ => LazyValueMap.Get p k σ) p
          (List.replicate (n + 1) ()) σ).1 = List.replicate (n + 1) (p.New k σ.world).1 ∧
      (eachCall (fun p (_ : Unit) σ => LazyValueMap.Get p k σ) p
          (List.replicate (n + 1) ()) σ).2.2.world = (p.New k σ.world).2 ∧
      (eachCall (fun p (_ : Unit) σ => LazyValueMap.Get p k σ) p
          (List.replicate (n + 1) ()) σ).2.2.execs = σ.execs + 1 ∧
      (LazyValueMap.Get p k σ).2.2.execs = σ.execs + 1 ∧
      (LazyValueMap.Get
          (LazyValueMap.Delete
            (eachCall (fun p (_ : Unit) σ => LazyValueMap.Get p k σ) p
              (List.replicate (n + 1) ()) σ).2.1 k) k
          (eachCall (fun p (_ : Unit) σ => LazyValueMap.Get p k σ) p
              (List.replicate (n + 1) ()) σ).2.2).1
        = (p.New k (p.New k σ.world).2).1 ∧
      (LazyValueMap.Get
          (LazyValueMap.Delete
            (eachCall (fun p (_ : Unit) σ => LazyValueMap.Get p k σ) p
              (List.replicate (n + 1) ()) σ).2.1 k) k
          (eachCall (fun p (_ : Unit) σ => LazyValueMap.Get p k σ) p
              (List.replicate (n + 1) ()) σ).2.2).2.2.execs = σ.execs + 2) := by
  refine ⟨⟨rfl, rfl, rfl, rfl⟩, ?_⟩
  intro hk
  have hl := (not_Held_iff p.entries k).1 hk
  have hsim := eachCall_Get_eq k (n + 1) p σ
  have hdo := eachCall_Do_fresh k (fun w => p.New k w)
    (List.replicate n (fun w => p.New k w)) p.entries σ hl
  rw [← List.replicate_succ] at hdo
  simp only [List.length_replicate] at hdo
  have hw := hsim.2.2.2 ▸ hdo.2.2.1
  have he := hsim.2.2.2 ▸ hdo.2.2.2
  have hget : ∀ (q : LazyValueMap K W P V) (τ : Store W P V),
      (LazyValueMap.Get (LazyValueMap.Delete q k) k τ).1 = (q.New k τ.world).1 ∧
      (LazyValueMap.Get (LazyValueMap.Delete q k) k τ).2.2.execs = τ.execs + 1 := by
    intro q τ
    have hd : SyncMap.Load (LazyValueMap.Delete q k).entries k = none :=
      Load_Delete_self _ k
    have hf := Do_fresh (LazyValueMap.Delete q k).entries k (fun w => q.New k w) τ hd
    constructor
    · show (ValueMap.Do (LazyValueMap.Delete q k).entries k (fun w => q.New k w) τ).1 = _
      rw [hf]
    · show (ValueMap.Do (LazyValueMap.Delete q k).entries k (fun w => q.New k w) τ).2.2.execs = _
      rw [hf]
  refine ⟨by rw [hsim.1, hdo.1], hw, he, ?_, ?_, ?_⟩
  · show (ValueMap.Do p.entries k (fun w => p.New k w) σ).2.2.execs = σ.execs + 1
    rw [Do_fresh _ k _ σ hl]
  · rw [(hget _ _).1, hsim.2.2.1, hw]
  · rw [(hget _ _).2, he]

/-- The closure of a key other than the one `Do` or `Delete` is called on stays
as it is, for any result type. -/
theorem frame_Do_Delete (U : Type) (m : ValueMap K) (a b : K) (fa fb : Comp W P U)
    (σ : Store W P U) (hs : Sound m σ) (hab : a ≠ b) :
    entry (ValueMap.Do m a fa σ).2.1 (ValueMap.Do m a fa σ).2.2 b = entry m σ b ∧
    (Held (ValueMap.Do m a fa σ).2.1 b ↔ Held m b) ∧
    entry (ValueMap.Delete m a) σ b = entry m σ b ∧
    (Held (ValueMap.Delete m a) b ↔ Held m b) ∧
    (¬ Held m a → ¬ Held m b →
      (ValueMap.Do m a fa σ).1 = (fa σ.world).1 ∧
      (ValueMap.Do (ValueMap.Do m a fa σ).2.1 b fb (ValueMap.Do m a fa σ).2.2).1
        = (fb (fa σ.world).2).1 ∧
      (ValueMap.Do (ValueMap.Do m a fa σ).2.1 b fb (ValueMap.Do m a fa σ).2.2).2.2.world
        = (fb (fa σ.world).2).2 ∧
      (ValueMap.Do (ValueMap.Do m a fa σ).2.1 b fb (ValueMap.Do m a fa σ).2.2).2.2.execs
        = σ.execs + 2) := by
  refine ⟨entry_Do_ne m a b fa σ hs hab, ?_, entry_Delete_ne m a b σ hab, ?_, ?_⟩
  · unfold Held; rw [Load_Do_ne m a b fa σ hab]
  · unfold Held ValueMap.Delete Map.Delete; rw [Load_Delete_ne m a b hab]
  intro ha hb
  have hla := (not_Held_iff m a).1 ha
  have hlb := (not_Held_iff m b).1 hb
  have h1 := Do_fresh m a fa σ hla
  have hlb2 : SyncMap.Load (ValueMap.Do m a fa σ).2.1 b = none := by
    rw [h1]; simp [Load_append, hlb, SyncMap.Load, hab]
  have h2 := Do_fresh (ValueMap.Do m a fa σ).2.1 b fb (ValueMap.Do m a fa σ).2.2 hlb2
  refine ⟨by rw [h1], ?_, ?_, ?_⟩
  · rw [h2, h1]
  · rw [h2, h1]
  · rw [h2, h1]

/-- C5: for two distinct keys `a` and `b` of a map whose stored functions are
the closures `Do` allocated, `Do(a, fa)` and `Delete(a)` leave the entry of `b`
as it is: held or not, and the same closure state (memoized value or stored
panic).  When neither key is held, `Do(a, fa)` followed by `Do(b, fb)` runs
`fa` and then `fb`, each call ends the way its own computation ended, and two
computation bodies have been entered; `a` and `b` being arbitrary, this is
either order.  This holds for `ValueMap`, `FuncMap` and `ValuesMap`. -/
theorem distinct_keys_independent :
    (∀ (m : ValueMap K) (a b : K) (fa fb : Comp W P V) (σ : Store W P V),
      Sound m σ → a ≠ b →
      entry (ValueMap.Do m a fa σ).2.1 (ValueMap.Do m a fa σ).2.2 b = entry m σ b ∧
      (Held (ValueMap.Do m a fa σ).2.1 b ↔ Held m b) ∧
      entry (ValueMap.Delete m a) σ b = entry m σ b ∧
      (Held (ValueMap.Delete m a) b ↔ Held m b) ∧
      (¬ Held m a → ¬ Held m b →
        (ValueMap.Do m a fa σ).1 = (fa σ.world).1 ∧
        (ValueMap.Do (ValueMap.Do m a fa σ).2.1 b fb (ValueMap.Do m a fa σ).2.2).1
          = (fb (fa σ.world).2).1 ∧
        (ValueMap.Do (ValueMap.Do m a fa σ).2.1 b fb (ValueMap.Do m a fa σ).2.2).2.2.world
          = (fb (fa σ.world).2).2 ∧
        (ValueMap.Do (ValueMap.Do m a fa σ).2.1 b fb (ValueMap.Do m a fa σ).2.2).2.2.execs
          = σ.execs + 2)) ∧
    (∀ (m : FuncMap K) (a b : K) (fa fb : Comp W P Unit) (σ : Store W P Unit),
      Sound m σ → a ≠ b →
      entry (FuncMap.Do m a fa σ).2.1 (FuncMap.Do m a fa σ).2.2 b = entry m σ b ∧
      (Held (FuncMap.Do m a fa σ).2.1 b ↔ Held m b) ∧
      entry (FuncMap.Delete m a) σ b = entry m σ b ∧
      (Held (FuncMap.Delete m a) b ↔ Held m b) ∧
      (¬ Held m a → ¬ Held m b →
        (FuncMap.Do m a fa σ).1 = (fa σ.world).1 ∧
        (FuncMap.Do (FuncMap.Do m a fa σ).2.1 b fb (FuncMap.Do m a fa σ).2.2).1
          = (fb (fa σ.world).2).1 ∧
        (FuncMap.Do (FuncMap.Do m a fa σ).2.1 b fb (FuncMap.Do m a fa σ).2.2).2.2.world
          = (fb (fa σ.world).2).2 ∧
        (FuncMap.Do (FuncMap.Do m a fa σ).2.1 b fb (FuncMap.Do m a fa σ).2.2).2.2.execs
          = σ.execs + 2)) ∧
    (∀ (m : ValuesMap K) (a b : K) (fa fb : Comp W P (V1 × V2)) (σ : Store W P (V1 × V2)),
      Sound m σ → a ≠ b →
      entry (ValuesMap.Do m a fa σ).2.1 (ValuesMap.Do m a fa σ).2.2 b = entry m σ b ∧
      (Held (ValuesMap.Do m a fa σ).2.1 b ↔ Held m b) ∧
      entry (ValuesMap.Delete m a) σ b = entry m σ b ∧
      (Held (ValuesMap.Delete m a) b ↔ Held m b) ∧
      (¬ Held m a → ¬ Held m b →
        (ValuesMap.Do m a fa σ).1 = (fa σ.world).1 ∧
        (ValuesMap.Do (ValuesMap.Do m a fa σ).2.1 b fb (ValuesMap.Do m a fa σ).2.2).1
          = (fb (fa σ.world).2).1 ∧
        (ValuesMap.Do (ValuesMap.Do m a fa σ).2.1 b fb (ValuesMap.Do m a fa σ).2.2).2.2.world
          = (fb (fa σ.world).2).2 ∧
        (ValuesMap.Do (ValuesMap.Do m a fa σ).2.1 b fb (ValuesMap.Do m a fa σ).2.2).2.2.execs
          = σ.execs + 2)) :=
  ⟨fun m a b fa fb σ hs hab => frame_Do_Delete V m a b fa fb σ hs hab,
   fun m a b fa fb σ hs hab => frame_Do_Delete Unit m a b fa fb σ hs hab,
   fun m a b fa fb σ hs hab => frame_Do_Delete (V1 × V2) m a b fa fb σ hs hab⟩

/-- `Values` on a `ValueMap` with one entry per key, none of them the nil
interface value: when the closure of every held key has fired and returned a
value, `Values()` returns a list that is a permutation of the memoized values of
the held keys and has `Len()` elements, and the program state is as before;
when the closure of every held key has fired and one of them holds a panic
value, `Values()` panics with the panic value stored for some held key. -/
theorem Values_of_keys_not_nil [GoType K] (m : ValueMap K) (σ : Store W P V)
    (hu : UniqueKeys m) (hnil : ∀ e ∈ m, GoType.isNil e.1 = false) :
    ((∀ k, Held m k → ∃ v, entry m σ k = some (Cell.done (Outcome.ret v))) →
      ∃ vs, ValueMap.Values m σ = (Outcome.ret vs, σ) ∧
        List.Perm vs (memoized m σ) ∧ vs.length = ValueMap.Len m) ∧
    (Evaluated m σ → ∀ k p, entry m σ k = some (Cell.done (Outcome.panic p)) →
      ∃ k1 p1, Held m k1 ∧ entry m σ k1 = some (Cell.done (Outcome.panic p1)) ∧
        ValueMap.Values m σ = (Outcome.panic p1, σ)) := by
  refine ⟨?_, ?_⟩
  · intro hall
    have hdone : ∀ e ∈ m, ∃ o, σ.cells[e.2]? = some (Cell.done o) := by
      intro e he
      obtain ⟨v, hv⟩ := hall e.1 (Held_of_mem m e he)
      rw [entry_of_mem m σ hu e he] at hv
      exact ⟨_, hv⟩
    rcases Range_appendResult m [] σ hdone with h1 | h1
    · refine ⟨m.filterMap (fun e => Cell.value? σ.cells[e.2]?), ?_, ?_, ?_⟩
      · simp [ValueMap.Values, Range_of_keys_not_nil m _ _ hnil, h1.2]
      · rw [memoized_eq m σ hu]
      · rw [ValueMap.Len, Len_eq_length]
        apply length_filterMap_of_forall_some
        intro e he
        obtain ⟨v, hv⟩ := h1.1 e he
        exact ⟨v, by rw [hv]; rfl⟩
    · obtain ⟨e, he, p, acc1, hp, _⟩ := h1
      obtain ⟨v, hv⟩ := hall e.1 (Held_of_mem m e he)
      rw [entry_of_mem m σ hu e he, hp] at hv
      cases hv
  · intro hev k p hk
    have hdone : ∀ e ∈ m, ∃ o, σ.cells[e.2]? = some (Cell.done o) := by
      intro e he
      obtain ⟨o, ho⟩ := hev e.1 (Held_of_mem m e he)
      rw [entry_of_mem m σ hu e he] at ho
      exact ⟨_, ho⟩
    rcases Range_appendResult m [] σ hdone with h1 | h1
    · exfalso
      unfold entry at hk
      cases hy : SyncMap.Load m k with
      | none => rw [hy] at hk; cases hk
      | some y =>
        rw [hy] at hk
        simp only [Option.some_bind] at hk
        obtain ⟨v, hv⟩ := h1.1 (k, y) (Load_mem m k y hy)
        rw [hk] at hv
        cases hv
    · obtain ⟨e, he, p1, acc1, hp, hr⟩ := h1
      refine ⟨e.1, p1, Held_of_mem m e he, ?_, ?_⟩
      · rw [entry_of_mem m σ hu e he]; exact hp
      · simp [ValueMap.Values, Range_of_keys_not_nil m _ _ hnil, hr]

/-- C7: on a `ValueMap[any, int64]`, after `Do(nil, func() int64 { return 10 })`
the map holds one key, whose computation returned 10 (`Len` is 1, the memoized
values are `[10]`), and `Values()` panics on `key.(K)` with a run-time error
instead of returning `[10]`; no stored function has panicked. -/
theorem Values_nil_key_panics :
    ValueMap.Do ([] : ValueMap (Option Nat)) none (fun w => (Outcome.ret 10, w)) (start Nat)
      = (Outcome.ret 10, [(none, 0)],
          { world := 0, cells := [Cell.done (Outcome.ret 10)], execs := 1 }) ∧
    ValueMap.Len ([(none, 0)] : ValueMap (Option Nat)) = 1 ∧
    memoized ([(none, 0)] : ValueMap (Option Nat))
        ({ world := 0, cells := [Cell.done (Outcome.ret 10)], execs := 1 } :
          Store Nat String Nat) = [10] ∧
    ValueMap.Values ([(none, 0)] : ValueMap (Option Nat))
        ({ world := 0, cells := [Cell.done (Outcome.ret 10)], execs := 1 } :
          Store Nat String Nat)
      = (Outcome.panic default,
          { world := 0, cells := [Cell.done (Outcome.ret 10)], execs := 1 }) :=
  ⟨rfl, rfl, rfl, rfl⟩

/-- C4: `N` goroutines call `Do(k, fᵢ)` at the same time on a key that is not
held, and are scheduled in any order.  In every state they reach: at most one
computation body has been entered and at most one has been run to its end; a
goroutine has returned only when one body has been entered and run to its
end, and it returns the outcome of that run, which is the run of one of the
`fᵢ` on the caller's state of the start; the goroutines do not deadlock (unless
all have returned, one of them can move), the run is over after at most `4 N`
steps, and some schedule lets all of them return.  When all have returned and
`N ≥ 1`, exactly one body has been entered. -/
theorem concurrent_Do_runs_once (m : ValueMap K) (k : K) (fs : List (Comp W P V))
    (σ : Store W P V) (sched : List Nat) (c : Shared K W P V)
    (hk : ¬ Held m k) (hrun : run k sched (race m σ fs) = some c) :
    c.begun ≤ 1 ∧ c.store.execs ≤ σ.execs + 1 ∧
    (∀ o, Goroutine.returned o ∈ c.pool →
      c.begun = 1 ∧ c.store.execs = σ.execs + 1 ∧
      ∃ f ∈ fs, o = (f σ.world).1 ∧ c.store.world = (f σ.world).2) ∧
    ((∀ t ∈ c.pool, ∃ o, t = Goroutine.returned o) ∨ ∃ i c1, step k i c = some c1) ∧
    (∃ rest c1, run k rest c = some c1 ∧ ∀ t ∈ c1.pool, ∃ o, t = Goroutine.returned o) ∧
    c.pool.length = fs.length ∧ sched.length + c.fuel ≤ 4 * fs.length ∧
    ((∀ t ∈ c.pool, ∃ o, t = Goroutine.returned o) → fs ≠ [] →
      c.begun = 1 ∧ c.store.execs = σ.execs + 1) := by
  have h0 := RaceInv_race m k σ fs ((not_Held_iff m k).1 hk)
  obtain ⟨hinv, hlen, hfuel⟩ := RaceInv_run k σ.world σ.execs fs sched _ c h0 hrun
  rw [fuel_race] at hfuel
  have hlen1 : c.pool.length = fs.length := by rw [hlen]; simp [race]
  have hret : ∀ o, Goroutine.returned o ∈ c.pool →
      c.begun = 1 ∧ c.store.execs = σ.execs + 1 ∧
      ∃ f ∈ fs, o = (f σ.world).1 ∧ c.store.world = (f σ.world).2 := by
    intro o ho
    obtain ⟨_, hB, hC⟩ := hinv
    cases hl : SyncMap.Load c.map k with
    | none =>
      obtain ⟨_, _, _, hall⟩ := hB hl
      rcases hall _ ho with ⟨f1, hf1⟩ | ⟨g2, f1, hg2, _⟩
      · cases hf1
      · cases hg2
    | some a =>
      obtain ⟨_, _, hph⟩ := hC a hl
      rcases hph with ⟨_, _, _, hnr, _⟩ | ⟨f0, hf0, _, hw, he, hb, _, hr⟩
      · exact absurd ho (hnr o)
      · exact ⟨hb, he, f0, hf0, hr o ho, hw⟩
  have hbound : c.begun ≤ 1 ∧ c.store.execs ≤ σ.execs + 1 := by
    obtain ⟨_, hB, hC⟩ := hinv
    cases hl : SyncMap.Load c.map k with
    | none =>
      obtain ⟨_, he, hb, _⟩ := hB hl
      omega
    | some a =>
      obtain ⟨_, _, hph⟩ := hC a hl
      rcases hph with ⟨_, _, he, _, hb⟩ | ⟨f0, _, _, _, he, hb, _, _⟩
      · rcases hb with ⟨hb, _⟩ | ⟨hb, _⟩ <;> omega
      · omega
  refine ⟨hbound.1, hbound.2, hret, step_progress k c,
    RaceInv_finishes k σ.world σ.execs fs c.fuel c hinv (Nat.le_refl _), hlen1, hfuel, ?_⟩
  intro hall hne
  cases hpool : c.pool with
  | nil =>
    rw [hpool] at hlen1
    cases fs with
    | nil => exact absurd rfl hne
    | cons f fs => simp at hlen1
  | cons t ts =>
    have ht : t ∈ c.pool := by rw [hpool]; exact List.mem_cons_self _ _
    obtain ⟨o, ho⟩ := hall t ht
    have := hret o (ho ▸ ht)
    exact ⟨this.1, this.2.1⟩

/-- Two goroutines call `Do` on key 1 of an empty map with the counting computation,
scheduled so that the second one wins the `Get` and runs its computation while
the first one waits: both return 1 and one computation has run. -/
theorem concurrent_Do_runs_once_witness :
    ¬ Held ([] : ValueMap Nat) 1 ∧
    run 1 [0, 1, 1, 0, 1, 1, 0] (race ([] : ValueMap Nat) (start Nat) [tick, tick])
      = some { map := [(1, 1)],
               store := { world := 1,
                          cells := [Cell.pending tick, Cell.done (Outcome.ret 1)],
                          execs := 1 },
               begun := 1,
               pool := [Goroutine.returned (Outcome.ret 1), Goroutine.returned (Outcome.ret 1)] } ∧
    (1 : Nat) ≤ 1 ∧ (1 : Nat) ≤ (start Nat).execs + 1 := by
  have hrun : run 1 [0, 1, 1, 0, 1, 1, 0] (race ([] : ValueMap Nat) (start Nat) [tick, tick])
      = some { map := [(1, 1)],
               store := { world := 1,
                          cells := [Cell.pending tick, Cell.done (Outcome.ret 1)],
                          execs := 1 },
               begun := 1,
               pool := [Goroutine.returned (Outcome.ret 1),
                        Goroutine.returned (Outcome.ret 1)] } := rfl
  have h := concurrent_Do_runs_once ([] : ValueMap Nat) 1 [tick, tick] (start Nat)
    [0, 1, 1, 0, 1, 1, 0] _ (by decide) hrun
  exact ⟨by decide, hrun, h.1, h.2.1⟩

/-! ## The properties on the runs of the tests -/

/-- Three calls of `Do` on key 1 of an empty `ValueMap` with the counting computation
of `TestValueMap`: each returns 1 and the counter stands at 1. -/
theorem Do_first_computation_shared_witness :
    (eachCall (fun m f σ => ValueMap.Do m 1 f σ) ([] : ValueMap Nat) [tick, tick, tick]
        (start Nat)).1 = [Outcome.ret 1, Outcome.ret 1, Outcome.ret 1] ∧
    (eachCall (fun m f σ => ValueMap.Do m 1 f σ) ([] : ValueMap Nat) [tick, tick, tick]
        (start Nat)).2.2.execs = 1 ∧
    (eachCall (fun m f σ => ValueMap.Do m 1 f σ) ([] : ValueMap Nat) [tick, tick, tick]
        (start Nat)).2.2.world = 1 :=
  (@Do_first_computation_shared Nat Nat String Nat Nat Nat _ _).1
    [] 1 tick [tick, tick] (start Nat) 1 (by decide) rfl

/-- Three calls of `Do` on key 1 of an empty `ValueMap`, the first with the panicking
computation of `TestValueMap_Panics`: each panics with "test" and the counter
stands at 1. -/
theorem Do_panic_replayed_witness :
    (ValueMap.Do ([] : ValueMap Nat) 1 (boom Nat) (start Nat)).1 = Outcome.panic "test" ∧
    (eachCall (fun m f σ => ValueMap.Do m 1 f σ) ([] : ValueMap Nat) [boom Nat, tick, boom Nat]
        (start Nat)).1 = [Outcome.panic "test", Outcome.panic "test", Outcome.panic "test"] ∧
    (eachCall (fun m f σ => ValueMap.Do m 1 f σ) ([] : ValueMap Nat) [boom Nat, tick, boom Nat]
        (start Nat)).2.2.execs = 1 ∧
    (eachCall (fun m f σ => ValueMap.Do m 1 f σ) ([] : ValueMap Nat) [boom Nat, tick, boom Nat]
        (start Nat)).2.2.world = 1 :=
  (@Do_panic_replayed Nat Nat String Nat Nat Nat _ _).1
    [] 1 (boom Nat) [tick, boom Nat] (start Nat) "test" (by decide) rfl

/-- On an empty `ValueMap`: `Do` with the panicking computation, `Delete`, then `Do`
with the counting computation, which runs and returns 2. -/
theorem Do_after_Delete_runs_again_witness :
    (ValueMap.Do (ValueMap.Delete (ValueMap.Do ([] : ValueMap Nat) 1 (boom Nat) (start Nat)).2.1 1)
        1 tick (ValueMap.Do ([] : ValueMap Nat) 1 (boom Nat) (start Nat)).2.2).1
      = Outcome.ret 2 ∧
    (ValueMap.Do (ValueMap.Delete (ValueMap.Do ([] : ValueMap Nat) 1 (boom Nat) (start Nat)).2.1 1)
        1 tick (ValueMap.Do ([] : ValueMap Nat) 1 (boom Nat) (start Nat)).2.2).2.2.execs = 2 :=
  ⟨((@Do_after_Delete_runs_again Nat Nat String Nat Nat Nat _ _).1
      [] 1 (boom Nat) tick (start Nat)).1,
   (((@Do_after_Delete_runs_again Nat Nat String Nat Nat Nat _ _).1
      [] 1 (boom Nat) tick (start Nat)).2.2.2 (by decide)).2.2⟩

/-- A `ValueMap` that holds key 1 with the memoized value 1: `Do` on key 2 leaves
the closure of key 1 as it is. -/
theorem distinct_keys_independent_witness :
    Sound ([(1, 0)] : ValueMap Nat)
        ({ world := 1, cells := [Cell.done (Outcome.ret 1)], execs := 1 } : Store Nat String Nat) ∧
    entry (ValueMap.Do ([(1, 0)] : ValueMap Nat) 2 tick
        ({ world := 1, cells := [Cell.done (Outcome.ret 1)], execs := 1 } :
          Store Nat String Nat)).2.1
      (ValueMap.Do ([(1, 0)] : ValueMap Nat) 2 tick
        ({ world := 1, cells := [Cell.done (Outcome.ret 1)], execs := 1 } :
          Store Nat String Nat)).2.2 1
      = entry ([(1, 0)] : ValueMap Nat)
        ({ world := 1, cells := [Cell.done (Outcome.ret 1)], execs := 1 } :
          Store Nat String Nat) 1 :=
  ⟨by decide,
   ((@distinct_keys_independent Nat Nat String Nat Nat Nat _ _).1 [(1, 0)] 2 1 tick tick
      { world := 1, cells := [Cell.done (Outcome.ret 1)], execs := 1 }
      (by decide) (by decide)).1⟩

/-- A `ValueMap` that holds key 1: `Do` on key 2 with a panicking computation adds
one to `Len`, `Delete` on key 1 takes one off. -/
theorem Len_counts_held_keys_witness :
    ValueMap.Len (ValueMap.Do ([(1, 0)] : ValueMap Nat) 2 (boom Nat)
        { world := 1, cells := [Cell.done (Outcome.ret 1)], execs := 1 }).2.1
      = ValueMap.Len ([(1, 0)] : ValueMap Nat) + 1 ∧
    ValueMap.Len (ValueMap.Delete ([(1, 0)] : ValueMap Nat) 1) + 1
      = ValueMap.Len ([(1, 0)] : ValueMap Nat) :=
  ⟨((@Len_counts_held_keys Nat Nat String Nat Nat Nat _ _).1.2 [(1, 0)] 2 (boom Nat)
      { world := 1, cells := [Cell.done (Outcome.ret 1)], execs := 1 }).1 (by decide),
   ((@Len_counts_held_keys Nat Nat String Nat Nat Nat _ _).1.2 [(1, 0)] 1 (boom Nat)
      { world := 1, cells := [Cell.done (Outcome.ret 1)], execs := 1 }).2.2.1
      (by decide) (by decide)⟩

/-- A `ValueMap` that holds keys 1 and 2 with the memoized values 10 and 20, as in
`TestValueMap_Values`: `Values` returns them and changes nothing.  When key 2
holds the panic value "test" instead, `Values` panics with a stored panic value. -/
theorem Values_of_keys_not_nil_witness :
    UniqueKeys ([(1, 0), (2, 1)] : ValueMap Nat) ∧
    (∃ vs, ValueMap.Values ([(1, 0), (2, 1)] : ValueMap Nat)
        ({ world := 0, cells := [Cell.done (Outcome.ret 10), Cell.done (Outcome.ret 20)],
           execs := 2 } : Store Nat String Nat)
        = (Outcome.ret vs,
            { world := 0, cells := [Cell.done (Outcome.ret 10), Cell.done (Outcome.ret 20)],
              execs := 2 }) ∧
      List.Perm vs (memoized ([(1, 0), (2, 1)] : ValueMap Nat)
        ({ world := 0, cells := [Cell.done (Outcome.ret 10), Cell.done (Outcome.ret 20)],
           execs := 2 } : Store Nat String Nat)) ∧
      vs.length = ValueMap.Len ([(1, 0), (2, 1)] : ValueMap Nat)) ∧
    (∃ k1 p1, Held ([(1, 0), (2, 1)] : ValueMap Nat) k1 ∧
      entry ([(1, 0), (2, 1)] : ValueMap Nat)
        ({ world := 2, cells := [Cell.done (Outcome.ret 10), Cell.done (Outcome.panic "test")],
           execs := 2 } : Store Nat String Nat) k1 = some (Cell.done (Outcome.panic p1)) ∧
      ValueMap.Values ([(1, 0), (2, 1)] : ValueMap Nat)
        ({ world := 2, cells := [Cell.done (Outcome.ret 10), Cell.done (Outcome.panic "test")],
           execs := 2 } : Store Nat String Nat)
        = (Outcome.panic p1,
            { world := 2, cells := [Cell.done (Outcome.ret 10), Cell.done (Outcome.panic "test")],
              execs := 2 })) := by
  have hkeys : ∀ k, Held ([(1, 0), (2, 1)] : ValueMap Nat) k → k = 1 ∨ k = 2 := by
    intro k hk
    by_cases h1 : k = 1
    · exact Or.inl h1
    · by_cases h2 : k = 2
      · exact Or.inr h2
      · exfalso
        have h1' : ¬ (1 = k) := fun h => h1 h.symm
        have h2' : ¬ (2 = k) := fun h => h2 h.symm
        simp [Held, SyncMap.Load, h1', h2'] at hk
  refine ⟨by decide, (Values_of_keys_not_nil _ _ (by decide) (by decide)).1 ?_,
    (Values_of_keys_not_nil _ _ (by decide) (by decide)).2 ?_ 2 "test" rfl⟩
  · intro k hk
    rcases hkeys k hk with h | h
    · subst h; exact ⟨10, rfl⟩
    · subst h; exact ⟨20, rfl⟩
  · intro k hk
    rcases hkeys k hk with h | h
    · subst h; exact ⟨_, rfl⟩
    · subst h; exact ⟨_, rfl⟩

/-- Three calls of `Get` on key 1 of a fresh `LazyValueMap` whose `New` depends on a
counter: each returns what the first run of `New` returned, and `New` ran once. -/
theorem LazyValueMap_Get_is_Do_witness :
    (eachCall (fun p (_ : Unit) σ => LazyValueMap.Get p 1 σ)
        ({ New := fun k w => (Outcome.ret (k + w), w + 1), entries := [] } :
          LazyValueMap Nat Nat String Nat)
        (List.replicate 3 ()) (start Nat)).1
      = [Outcome.ret 1, Outcome.ret 1, Outcome.ret 1] ∧
    (eachCall (fun p (_ : Unit) σ => LazyValueMap.Get p 1 σ)
        ({ New := fun k w => (Outcome.ret (k + w), w + 1), entries := [] } :
          LazyValueMap Nat Nat String Nat)
        (List.replicate 3 ()) (start Nat)).2.2.execs = 1 :=
  ⟨((LazyValueMap_Get_is_Do
      ({ New := fun k w => (Outcome.ret (k + w), w + 1), entries := [] } :
        LazyValueMap Nat Nat String Nat) 1 2 (start Nat)).2 (by decide)).1,
   ((LazyValueMap_Get_is_Do
      ({ New := fun k w => (Outcome.ret (k + w), w + 1), entries := [] } :
        LazyValueMap Nat Nat String Nat) 1 2 (start Nat)).2 (by decide)).2.2.1⟩

/-- Three calls of the function returned by `Value` for the counting computation of
`TestValue`: each returns 1 and the counter stands at 1. -/
theorem Value_invokes_once_witness :
    (callTimes (Value tick (start Nat)).1 3 (Value tick (start Nat)).2).1
      = [Outcome.ret 1, Outcome.ret 1, Outcome.ret 1] ∧
    (callTimes (Value tick (start Nat)).1 3 (Value tick (start Nat)).2).2.world = 1 ∧
    (callTimes (Value tick (start Nat)).1 3 (Value tick (start Nat)).2).2.execs = 1 :=
  ⟨((@Value_invokes_once Nat String Nat Nat Nat _).1 tick 2 (start Nat) 1 rfl).1,
   ((@Value_invokes_once Nat String Nat Nat Nat _).1 tick 2 (start Nat) 1 rfl).2.1,
   ((@Value_invokes_once Nat String Nat Nat Nat _).1 tick 2 (start Nat) 1 rfl).2.2.1⟩

/-- On an empty `Map[int, int]`: `Get` on key 1 with default 7 returns 7 and
stores it, the next `Get` with default 9 returns 7, and `Len` has grown by one. -/
theorem Map_Get_cases_witness :
    (Map.Get (P := String) ([] : Map Nat Nat) 1 7).1 = Outcome.ret 7 ∧
    Map.Get (P := String) (Map.Get (P := String) ([] : Map Nat Nat) 1 7).2 1 9
      = (Outcome.ret 7, (Map.Get (P := String) ([] : Map Nat Nat) 1 7).2) ∧
    Map.Len (Map.Get (P := String) ([] : Map Nat Nat) 1 7).2 = Map.Len ([] : Map Nat Nat) + 1 :=
  ⟨((@Map_Get_cases Nat String Nat _ _ _ [] 1 7).2.1 (by decide) rfl).1,
   ((@Map_Get_cases Nat String Nat _ _ _ [] 1 7).2.1 (by decide) rfl).2.2.1 9,
   ((@Map_Get_cases Nat String Nat _ _ _ [] 1 7).2.1 (by decide) rfl).2.2.2⟩

end Claims

end Once
